import Mathlib

/-!
# AVL tree of `george.cpp`

A shallow embedding of the classes `Node` and `AVLTree` of `src/george.cpp`.

* A `Node*` is a value of the inductive type `Node`: `Node.null` is `nullptr`,
  `Node.node key height left right` is a pointer to a node with these four fields.
  The tree owns its nodes exclusively, so the mutation in place of the source is
  the construction of a new value.
* Keys and heights are C++ `int`, embedded as `Int`.  Keys are only compared.  A height
  is only produced by `max … + 1` from the heights below, so in a tree with correct
  heights it is bounded by the number of nodes and never reaches the 32-bit limit.
* An operation that dereferences a null pointer (a rotation without the required
  child, a key read through a null child) returns `none`.
* The diagnostic lines written to `std::cout` that report a detected imbalance or a
  performed rotation are collected as a list of `Event`s, in the order they are written.
-/

namespace AVL

/-- A `Node*` of the source: `null` is `nullptr`; the constructor of the source
(`Node(int k)`) builds `node k 1 null null`. -/
inductive Node where
  | null : Node
  | node (key : Int) (height : Int) (left : Node) (right : Node) : Node
  deriving DecidableEq, Repr

/-- The four rebalancing cases named in the diagnostic output. -/
inductive Case where
  | leftLeft | rightRight | leftRight | rightLeft
  deriving DecidableEq, Repr

/-- Diagnostic lines of the source that report structural events:
"Performed right rotation on node k" (line 49), "Performed left rotation on node k"
(line 61), "… imbalance detected at node k" (lines 93, 98, 103, 109 and 173, 178, 184, 189). -/
inductive Event where
  | rightRotation (key : Int)
  | leftRotation (key : Int)
  | imbalance (c : Case) (key : Int)
  deriving DecidableEq, Repr

/-- The state of the class `AVLTree`: its only data member `root`. -/
structure AVLTree where
  root : Node
  deriving DecidableEq, Repr

namespace AVLTree

/-- Source lines 25-27: the stored height, 0 for a null pointer. -/
def getHeight : Node → Int
  | .null => 0
  | .node _ h _ _ => h

/-- Source lines 30-32: the balance factor, 0 for a null pointer. -/
def getBalance : Node → Int
  | .null => 0
  | .node _ _ l r => getHeight l - getHeight r

/-- Source lines 35-39: recompute the stored height from the children's stored heights. -/
def updateHeight : Node → Node
  | .null => .null
  | .node k _ l r => .node k (max (getHeight l) (getHeight r) + 1) l r

/-- Source lines 42-51.  `y->left` and `x->right` are read without a null check:
a null `y` or a null `y->left` is a fault (`none`). -/
def rightRotate : Node → Option (Node × List Event)
  | .node yk yh (.node xk xh a t2) c =>
      let y := updateHeight (.node yk yh t2 c)
      let x := updateHeight (.node xk xh a y)
      some (x, [Event.rightRotation yk])
  | _ => none

/-- Source lines 54-63.  A null `x` or a null `x->right` is a fault (`none`). -/
def leftRotate : Node → Option (Node × List Event)
  | .node xk xh a (.node yk yh t2 c) =>
      let x := updateHeight (.node xk xh a t2)
      let y := updateHeight (.node yk yh x c)
      some (y, [Event.leftRotation xk])
  | _ => none

/-- Sequencing of the diagnostic output: the events `ev` were written before the
call whose result is the argument. -/
def withLog (ev : List Event) : Option (Node × List Event) → Option (Node × List Event)
  | none => none
  | some (n, ev') => some (n, ev ++ ev')

/-- The C++ condition `c && p(n->key)`: by short-circuit evaluation the key is read
only when `c` holds, and reading it through a null pointer is a fault (`none`). -/
def andKey (c : Bool) (n : Node) (p : Int → Bool) : Option Bool :=
  if c then
    match n with
    | .null => none
    | .node k _ _ _ => some (p k)
  else some false

/-- Source lines 83-114: the code of `insertNode` after the descent, run on the
node with key `k`, stored height `h` and children `l`, `r` (one of them just
reassigned), for the inserted key `key`.  The four `if`s are tried in the order of
the source. -/
def insertFixup (k h : Int) (l r : Node) (key : Int) : Option (Node × List Event) :=
  let node := updateHeight (.node k h l r)
  let balance := getBalance node
  match andKey (decide (balance > 1)) l (fun lk => decide (key < lk)) with
  | none => none
  | some true => withLog [Event.imbalance Case.leftLeft k] (rightRotate node)
  | some false =>
  match andKey (decide (balance < -1)) r (fun rk => decide (key > rk)) with
  | none => none
  | some true => withLog [Event.imbalance Case.rightRight k] (leftRotate node)
  | some false =>
  match andKey (decide (balance > 1)) l (fun lk => decide (key > lk)) with
  | none => none
  | some true =>
      match leftRotate l with
      | none => none
      | some (l', ev) =>
          withLog (Event.imbalance Case.leftRight k :: ev)
            (rightRotate (.node k (getHeight node) l' r))
  | some false =>
  match andKey (decide (balance < -1)) r (fun rk => decide (key < rk)) with
  | none => none
  | some true =>
      match rightRotate r with
      | none => none
      | some (r', ev) =>
          withLog (Event.imbalance Case.rightLeft k :: ev)
            (leftRotate (.node k (getHeight node) l r'))
  | some false => some (node, [])

/-- Source lines 66-115. -/
def insertNode : Node → Int → Option (Node × List Event)
  | .null, key => some (.node key 1 .null .null, [])
  | .node k h l r, key =>
      if key < k then
        match insertNode l key with
        | none => none
        | some (l', ev) => withLog ev (insertFixup k h l' r key)
      else if key > k then
        match insertNode r key with
        | none => none
        | some (r', ev) => withLog ev (insertFixup k h l r' key)
      else some (.node k h l r, [])

/-- Source lines 118-126: follow left pointers while there is a left child.  The
result is dereferenced on line 124, so a null argument is a fault (`none`). -/
def minValueNode : Node → Option Node
  | .null => none
  | .node k h .null r => some (.node k h .null r)
  | .node _ _ (.node lk lh ll lr) _ => minValueNode (.node lk lh ll lr)

/-- Source lines 163-194: the code of `deleteNode` after the descent, run on the
node with key `k`, stored height `h` and children `l`, `r`.  `getBalance` is
null-safe, so only the rotations can fault. -/
def deleteFixup (k h : Int) (l r : Node) : Option (Node × List Event) :=
  let node := updateHeight (.node k h l r)
  let balance := getBalance node
  if balance > 1 ∧ getBalance l ≥ 0 then
    withLog [Event.imbalance Case.leftLeft k] (rightRotate node)
  else if balance > 1 ∧ getBalance l < 0 then
    match leftRotate l with
    | none => none
    | some (l', ev) =>
        withLog (Event.imbalance Case.leftRight k :: ev)
          (rightRotate (.node k (getHeight node) l' r))
  else if balance < -1 ∧ getBalance r ≤ 0 then
    withLog [Event.imbalance Case.rightRight k] (leftRotate node)
  else if balance < -1 ∧ getBalance r > 0 then
    match rightRotate r with
    | none => none
    | some (r', ev) =>
        withLog (Event.imbalance Case.rightLeft k :: ev)
          (leftRotate (.node k (getHeight node) l r'))
  else some (node, [])

/-- The key field read through a pointer (`temp->key`): a fault on null. -/
def keyOf : Node → Option Int
  | .null => none
  | .node k _ _ _ => some k

/-- Source lines 129-195. -/
def deleteNode : Node → Int → Option (Node × List Event)
  | .null, _ => some (.null, [])
  | .node k h l r, key =>
      if key < k then
        match deleteNode l key with
        | none => none
        | some (l', ev) => withLog ev (deleteFixup k h l' r)
      else if key > k then
        match deleteNode r key with
        | none => none
        | some (r', ev) => withLog ev (deleteFixup k h l r')
      else
        match l, r with
        | .null, r => some (r, [])
        | .node lk lh ll lr, .null => some (.node lk lh ll lr, [])
        | .node lk lh ll lr, .node rk rh rl rr =>
            match (minValueNode (.node rk rh rl rr)).bind keyOf with
            | none => none
            | some m =>
                match deleteNode (.node rk rh rl rr) m with
                | none => none
                | some (r', ev) => withLog ev (deleteFixup m h (.node lk lh ll lr) r')

/-- Source lines 198-213: the found node, or null. -/
def searchNode : Node → Int → Node
  | .null, _ => .null
  | .node k h l r, key =>
      if k = key then .node k h l r
      else if key < k then searchNode l key
      else searchNode r key

/-- Source lines 216-222: the keys written by the in-order traversal, in order. -/
def inOrder : Node → List Int
  | .null => []
  | .node k _ l r => inOrder l ++ k :: inOrder r

/-- Source line 278: the constructor, an empty tree. -/
def empty : AVLTree := ⟨.null⟩

/-- Source lines 281-288: the new state and the events written. -/
def insert (t : AVLTree) (key : Int) : Option (AVLTree × List Event) :=
  (insertNode t.root key).map fun p => (⟨p.1⟩, p.2)

/-- Source lines 291-298: the new state and the events written. -/
def remove (t : AVLTree) (key : Int) : Option (AVLTree × List Event) :=
  (deleteNode t.root key).map fun p => (⟨p.1⟩, p.2)

/-- Source lines 301-311: the answer and the state after the call. -/
def search (t : AVLTree) (key : Int) : Bool × AVLTree :=
  (decide (searchNode t.root key ≠ .null), t)

end AVLTree

open AVLTree

/-- A call of one of the two mutating public operations. -/
inductive Op where
  | insert (key : Int)
  | remove (key : Int)
  deriving DecidableEq, Repr

/-- One public call on a state: the state after it and the events written
(`none` on a fault). -/
def step (t : AVLTree) : Op → Option (AVLTree × List Event)
  | .insert k => t.insert k
  | .remove k => t.remove k

/-- A sequence of public calls, from left to right, starting in state `t`: the
final state and all events written, in order. -/
def run : List Op → AVLTree → Option (AVLTree × List Event)
  | [], t => some (t, [])
  | op :: ops, t =>
      match step t op with
      | none => none
      | some (t', ev) =>
          match run ops t' with
          | none => none
          | some (t'', ev') => some (t'', ev ++ ev')

/-- The key set after the same calls on a mathematical set: `insert` adds the key,
`remove` deletes it. -/
def replay : List Op → Finset Int → Finset Int
  | [], s => s
  | .insert k :: ops, s => replay ops (Insert.insert k s)
  | .remove k :: ops, s => replay ops (s.erase k)

/-- A node without children, as built by the constructor `Node(int k)`. -/
def leaf (k : Int) : Node := .node k 1 .null .null

/-- The insertions of `main` (source line 425). -/
def initialValues : List Int := [10, 20, 30, 40, 50, 25, 15, 5, 60, 70]

/-- The mutating calls of `main` (source lines 425-439). -/
def demoOps : List Op :=
  initialValues.map Op.insert ++ [Op.remove 20, Op.remove 30]

/-! ## The invariants of the data model -/

/-- Invariant 1 (BST property): at every node, every key of the left subtree is
smaller than the node's key and every key of the right subtree is greater. -/
def BST : Node → Prop
  | .null => True
  | .node k _ l r =>
      BST l ∧ BST r ∧ (∀ x ∈ inOrder l, x < k) ∧ (∀ x ∈ inOrder r, k < x)

/-- Invariant 2 (AVL balance property): at every node the stored heights of the two
children differ by at most one. -/
def Balanced : Node → Prop
  | .null => True
  | .node _ _ l r => Balanced l ∧ Balanced r ∧ |getHeight l - getHeight r| ≤ 1

/-- Invariant 3: every stored height is `1 + max` of the children's heights, with 0
for an absent child. -/
def HeightsOK : Node → Prop
  | .null => True
  | .node _ h l r =>
      HeightsOK l ∧ HeightsOK r ∧ h = 1 + max (getHeight l) (getHeight r)

/-- The three invariants together. -/
def Inv (t : Node) : Prop := BST t ∧ Balanced t ∧ HeightsOK t

/-- The number of nodes of a tree. -/
def size : Node → Nat
  | .null => 0
  | .node _ _ l r => size l + size r + 1

/-- The height of a tree recomputed from its shape: 0 for the empty tree, 1 for a leaf. -/
def height : Node → Nat
  | .null => 0
  | .node _ _ l r => max (height l) (height r) + 1

/-- Decision procedure for `BST`. -/
def decBST : (t : Node) → Decidable (BST t)
  | .null => isTrue trivial
  | .node k _ l r =>
      match decBST l, decBST r with
      | isTrue hl, isTrue hr =>
          if h : (∀ x ∈ inOrder l, x < k) ∧ (∀ x ∈ inOrder r, k < x) then
            isTrue ⟨hl, hr, h.1, h.2⟩
          else isFalse fun hb => h ⟨hb.2.2.1, hb.2.2.2⟩
      | isFalse hl, _ => isFalse fun hb => hl hb.1
      | _, isFalse hr => isFalse fun hb => hr hb.2.1

instance : DecidablePred BST := decBST

/-- Decision procedure for `Balanced`. -/
def decBalanced : (t : Node) → Decidable (Balanced t)
  | .null => isTrue trivial
  | .node _ _ l r =>
      match decBalanced l, decBalanced r with
      | isTrue hl, isTrue hr =>
          if h : |getHeight l - getHeight r| ≤ 1 then isTrue ⟨hl, hr, h⟩
          else isFalse fun hb => h hb.2.2
      | isFalse hl, _ => isFalse fun hb => hl hb.1
      | _, isFalse hr => isFalse fun hb => hr hb.2.1

instance : DecidablePred Balanced := decBalanced

/-- Decision procedure for `HeightsOK`. -/
def decHeightsOK : (t : Node) → Decidable (HeightsOK t)
  | .null => isTrue trivial
  | .node _ h l r =>
      match decHeightsOK l, decHeightsOK r with
      | isTrue hl, isTrue hr =>
          if e : h = 1 + max (getHeight l) (getHeight r) then isTrue ⟨hl, hr, e⟩
          else isFalse fun hb => e hb.2.2
      | isFalse hl, _ => isFalse fun hb => hl hb.1
      | _, isFalse hr => isFalse fun hb => hr hb.2.1

instance : DecidablePred HeightsOK := decHeightsOK

instance : DecidablePred Inv := fun t => by unfold Inv; infer_instance

/-- What `insertNode` leaves at the root of a subtree that it made taller: the new
key went to the side that is now the taller one, or the subtree is the new leaf. -/
def Grown (key : Int) : Node → Prop
  | .null => False
  | .node k h l r =>
      (key < k → getHeight l = getHeight r + 1) ∧
      (k < key → getHeight r = getHeight l + 1) ∧ (key = k → h = 1)

/-- The keys 1 … 609 in the breadth-first order of the Fibonacci tree of height 13
(the tree whose left subtree is the Fibonacci tree of height 12 and whose right
subtree is the one of height 11, and so on down). -/
def worstCaseKeys : List Int :=
  [377, 233, 521, 144, 322, 466, 576, 89, 199, 288, 356, 432, 500, 555, 597, 55, 123, 178,
    220, 267, 309, 343, 369, 411, 453, 487, 513, 542, 568, 589, 605, 34, 76, 110, 136, 165,
    191, 212, 228, 254, 280, 301, 317, 335, 351, 364, 374, 398, 424, 445, 461, 479, 495,
    508, 518, 534, 550, 563, 573, 584, 594, 602, 608, 21, 47, 68, 84, 102, 118, 131, 141,
    157, 173, 186, 196, 207, 217, 225, 231, 246, 262, 275, 285, 296, 306, 314, 320, 330,
    340, 348, 354, 361, 367, 372, 376, 390, 406, 419, 429, 440, 450, 458, 464, 474, 484,
    492, 498, 505, 511, 516, 520, 529, 539, 547, 553, 560, 566, 571, 575, 581, 587, 592,
    596, 600, 604, 607, 609, 13, 29, 42, 52, 63, 73, 81, 87, 97, 107, 115, 121, 128, 134,
    139, 143, 152, 162, 170, 176, 183, 189, 194, 198, 204, 210, 215, 219, 223, 227, 230,
    232, 241, 251, 259, 265, 272, 278, 283, 287, 293, 299, 304, 308, 312, 316, 319, 321,
    327, 333, 338, 342, 346, 350, 353, 355, 359, 363, 366, 368, 371, 373, 375, 385, 395,
    403, 409, 416, 422, 427, 431, 437, 443, 448, 452, 456, 460, 463, 465, 471, 477, 482,
    486, 490, 494, 497, 499, 503, 507, 510, 512, 515, 517, 519, 526, 532, 537, 541, 545,
    549, 552, 554, 558, 562, 565, 567, 570, 572, 574, 579, 583, 586, 588, 591, 593, 595,
    599, 601, 603, 606, 8, 18, 26, 32, 39, 45, 50, 54, 60, 66, 71, 75, 79, 83, 86, 88, 94,
    100, 105, 109, 113, 117, 120, 122, 126, 130, 133, 135, 138, 140, 142, 149, 155, 160,
    164, 168, 172, 175, 177, 181, 185, 188, 190, 193, 195, 197, 202, 206, 209, 211, 214,
    216, 218, 222, 224, 226, 229, 238, 244, 249, 253, 257, 261, 264, 266, 270, 274, 277,
    279, 282, 284, 286, 291, 295, 298, 300, 303, 305, 307, 311, 313, 315, 318, 325, 329,
    332, 334, 337, 339, 341, 345, 347, 349, 352, 358, 360, 362, 365, 370, 382, 388, 393,
    397, 401, 405, 408, 410, 414, 418, 421, 423, 426, 428, 430, 435, 439, 442, 444, 447,
    449, 451, 455, 457, 459, 462, 469, 473, 476, 478, 481, 483, 485, 489, 491, 493, 496,
    502, 504, 506, 509, 514, 524, 528, 531, 533, 536, 538, 540, 544, 546, 548, 551, 557,
    559, 561, 564, 569, 578, 580, 582, 585, 590, 598, 5, 11, 16, 20, 24, 28, 31, 33, 37,
    41, 44, 46, 49, 51, 53, 58, 62, 65, 67, 70, 72, 74, 78, 80, 82, 85, 92, 96, 99, 101,
    104, 106, 108, 112, 114, 116, 119, 125, 127, 129, 132, 137, 147, 151, 154, 156, 159,
    161, 163, 167, 169, 171, 174, 180, 182, 184, 187, 192, 201, 203, 205, 208, 213, 221,
    236, 240, 243, 245, 248, 250, 252, 256, 258, 260, 263, 269, 271, 273, 276, 281, 290,
    292, 294, 297, 302, 310, 324, 326, 328, 331, 336, 344, 357, 380, 384, 387, 389, 392,
    394, 396, 400, 402, 404, 407, 413, 415, 417, 420, 425, 434, 436, 438, 441, 446, 454,
    468, 470, 472, 475, 480, 488, 501, 523, 525, 527, 530, 535, 543, 556, 577, 3, 7, 10,
    12, 15, 17, 19, 23, 25, 27, 30, 36, 38, 40, 43, 48, 57, 59, 61, 64, 69, 77, 91, 93, 95,
    98, 103, 111, 124, 146, 148, 150, 153, 158, 166, 179, 200, 235, 237, 239, 242, 247,
    255, 268, 289, 323, 379, 381, 383, 386, 391, 399, 412, 433, 467, 522, 2, 4, 6, 9, 14,
    22, 35, 56, 90, 145, 234, 378, 1]

/-- The mirror image of a tree: left and right child swapped at every node, keys and
stored heights kept. -/
def mirror : Node → Node
  | .null => .null
  | .node k h l r => .node k h (mirror r) (mirror l)

/-- Source lines 88-89 of `insertNode`: the lines "Balance factor of node k: b"
written on the way back up, as the pairs `(k, b)` in the order they are written.  A
level whose recursive call faulted writes nothing. -/
def insertBalances : Node → Int → List (Int × Int)
  | .null, _ => []
  | .node k h l r, key =>
      if key < k then
        match insertNode l key with
        | none => insertBalances l key
        | some (l', _) =>
            insertBalances l key ++ [(k, getBalance (updateHeight (.node k h l' r)))]
      else if key > k then
        match insertNode r key with
        | none => insertBalances r key
        | some (r', _) =>
            insertBalances r key ++ [(k, getBalance (updateHeight (.node k h l r')))]
      else []

/-- The events written when exactly one of the four rebalancing cases is applied at
the node with key `n`: the imbalance report at `n`, then one rotation at `n` (single
cases) or one rotation at a child followed by one rotation at `n` (double cases). -/
def isCaseLog (n : Int) : List Event → Bool
  | [.imbalance .leftLeft k, .rightRotation k'] => decide (k = n ∧ k' = n)
  | [.imbalance .rightRight k, .leftRotation k'] => decide (k = n ∧ k' = n)
  | [.imbalance .leftRight k, .leftRotation _, .rightRotation k'] => decide (k = n ∧ k' = n)
  | [.imbalance .rightLeft k, .rightRotation _, .leftRotation k'] => decide (k = n ∧ k' = n)
  | _ => false

/-- The shape of the trace of one `insertNode` call on a balanced tree with correct
heights: either no level is out of balance and nothing is logged, or exactly one
level is, one case is applied there, and the height of the whole result is the
height before the call. -/
def OneCase (t t' : Node) (key : Int) (ev : List Event) : Prop :=
  ((∀ p ∈ insertBalances t key, |p.2| ≤ 1) ∧ ev = []) ∨
  (getHeight t' = getHeight t ∧ ∃ pre n b post,
    insertBalances t key = pre ++ (n, b) :: post ∧ (∀ p ∈ pre, |p.2| ≤ 1) ∧
    (∀ p ∈ post, |p.2| ≤ 1) ∧ 1 < |b| ∧ isCaseLog n ev = true)

/-- Source lines 245-246: `if (n) q.push(n)`. -/
def pushIf (q : List Node) : Node → List Node
  | .null => q
  | .node k h l r => q ++ [.node k h l r]

/-- Source lines 241-247: the `while (!q.empty())` loop of `levelOrder` on the queue
`q`, front first, returning the pairs `(key, height)` written.  Each iteration pops one
node, so `fuel` bounds the number of iterations; `none` is exhausted fuel or the
dereference of a null pointer taken from the queue. -/
def levelOrderLoop : Nat → List Node → Option (List (Int × Int))
  | _, [] => some []
  | 0, _ :: _ => none
  | _ + 1, .null :: _ => none
  | fuel + 1, .node k h l r :: q =>
      match levelOrderLoop fuel (pushIf (pushIf q l) r) with
      | none => none
      | some out => some ((k, h) :: out)

/-- Source lines 234-249: the pairs `(key, height)` written by `levelOrder`; nothing
for the empty tree.  The loop pops each node once, so the number of nodes is enough
fuel. -/
def levelOrder (node : Node) : Option (List (Int × Int)) :=
  match node with
  | .null => some []
  | .node k h l r => levelOrderLoop (size (.node k h l r)) [.node k h l r]

/-- The nodes at depth `d` of a tree, from left to right, as pairs `(key, height)`. -/
def levelNodes : Node → Nat → List (Int × Int)
  | .null, _ => []
  | .node k h _ _, 0 => [(k, h)]
  | .node _ _ l r, d + 1 => levelNodes l d ++ levelNodes r d

/-- The concatenation of the levels `d`, `d + 1`, …, `d + n - 1` of a tree. -/
def levels (t : Node) : Nat → Nat → List (Int × Int)
  | _, 0 => []
  | d, n + 1 => levelNodes t d ++ levels t (d + 1) n

/-- All nodes of a tree as pairs `(key, height)`, root first. -/
def nodes : Node → List (Int × Int)
  | .null => []
  | .node k h l r => (k, h) :: (nodes l ++ nodes r)

/-- The non-null nodes among a node's children, left first. -/
def present : Node → List Node
  | .null => []
  | .node k h l r => [.node k h l r]

/-- The roots of a forest as pairs `(key, height)`. -/
def rootsOf : List Node → List (Int × Int)
  | [] => []
  | .null :: q => rootsOf q
  | .node k h _ _ :: q => (k, h) :: rootsOf q

/-- The children of the roots of a forest, in order. -/
def childrenOf : List Node → List Node
  | [] => []
  | .null :: q => childrenOf q
  | .node _ _ l r :: q => present l ++ (present r ++ childrenOf q)

/-- Level `d` of a forest. -/
def levelF : List Node → Nat → List (Int × Int)
  | [], _ => []
  | t :: q, d => levelNodes t d ++ levelF q d

/-- Levels `d`, …, `d + n - 1` of a forest. -/
def levelsF (q : List Node) : Nat → Nat → List (Int × Int)
  | _, 0 => []
  | d, n + 1 => levelF q d ++ levelsF q (d + 1) n

/-- Breadth-first listing of a forest, level by level, for `n` levels. -/
def bfsF : Nat → List Node → List (Int × Int)
  | 0, _ => []
  | n + 1, q => rootsOf q ++ bfsF n (childrenOf q)

/-- Total number of nodes of a forest. -/
def sizeF : List Node → Nat
  | [] => 0
  | t :: q => size t + sizeF q

/-- Twelve keys whose insertion in this order builds, without any rotation, a tree of
height 5 in which the removal of 12 rebalances at two nodes. -/
def doubleRebalanceKeys : List Int := [8, 5, 11, 3, 7, 10, 12, 2, 4, 6, 9, 1]

/-! ## Basic facts -/

@[simp] theorem getHeight_null : getHeight .null = 0 := rfl

@[simp] theorem getHeight_node (k h : Int) (l r : Node) : getHeight (.node k h l r) = h := rfl

@[simp] theorem getBalance_null : getBalance .null = 0 := rfl

@[simp] theorem getBalance_node (k h : Int) (l r : Node) :
    getBalance (.node k h l r) = getHeight l - getHeight r := rfl

@[simp] theorem updateHeight_node (k h : Int) (l r : Node) :
    updateHeight (.node k h l r) = .node k (max (getHeight l) (getHeight r) + 1) l r := rfl

@[simp] theorem rightRotate_node (yk yh xk xh : Int) (a t2 c : Node) :
    rightRotate (.node yk yh (.node xk xh a t2) c) =
      some (.node xk (max (getHeight a) (max (getHeight t2) (getHeight c) + 1) + 1) a
        (.node yk (max (getHeight t2) (getHeight c) + 1) t2 c), [Event.rightRotation yk]) := rfl

@[simp] theorem leftRotate_node (xk xh yk yh : Int) (a t2 c : Node) :
    leftRotate (.node xk xh a (.node yk yh t2 c)) =
      some (.node yk (max (max (getHeight a) (getHeight t2) + 1) (getHeight c) + 1)
        (.node xk (max (getHeight a) (getHeight t2) + 1) a t2) c, [Event.leftRotation xk]) := rfl

@[simp] theorem withLog_some (ev ev' : List Event) (n : Node) :
    withLog ev (some (n, ev')) = some (n, ev ++ ev') := rfl

@[simp] theorem withLog_none (ev : List Event) : withLog ev none = none := rfl

@[simp] theorem andKey_false (n : Node) (p : Int → Bool) : andKey false n p = some false := rfl

@[simp] theorem andKey_true_node (k h : Int) (l r : Node) (p : Int → Bool) :
    andKey true (.node k h l r) p = some (p k) := rfl

@[simp] theorem andKey_true_null (p : Int → Bool) : andKey true .null p = none := rfl

@[simp] theorem inOrder_null : inOrder .null = [] := rfl

@[simp] theorem inOrder_node (k h : Int) (l r : Node) :
    inOrder (.node k h l r) = inOrder l ++ k :: inOrder r := rfl

theorem getHeight_nonneg : ∀ {t : Node}, HeightsOK t → 0 ≤ getHeight t
  | .null, _ => le_refl _
  | .node _ _ l r, h => by
      have hl := getHeight_nonneg h.1
      have hr := getHeight_nonneg h.2.1
      have e := h.2.2
      simp only [getHeight]
      omega

theorem getHeight_eq_height : ∀ {t : Node}, HeightsOK t → getHeight t = (height t : Int)
  | .null, _ => rfl
  | .node _ _ l r, h => by
      have hl := getHeight_eq_height h.1
      have hr := getHeight_eq_height h.2.1
      have e := h.2.2
      simp only [getHeight, height]
      omega

theorem inOrder_rightRotate {t t' : Node} {ev : List Event}
    (h : rightRotate t = some (t', ev)) : inOrder t' = inOrder t := by
  unfold rightRotate at h
  split at h
  · simp only [Option.some.injEq, Prod.mk.injEq] at h
    rw [← h.1]
    simp [updateHeight, inOrder]
  · exact absurd h (by simp)

theorem inOrder_leftRotate {t t' : Node} {ev : List Event}
    (h : leftRotate t = some (t', ev)) : inOrder t' = inOrder t := by
  unfold leftRotate at h
  split at h
  · simp only [Option.some.injEq, Prod.mk.injEq] at h
    rw [← h.1]
    simp [updateHeight, inOrder]
  · exact absurd h (by simp)

theorem withLog_eq_some {ev : List Event} {o : Option (Node × List Event)} {n : Node}
    {ev' : List Event} (h : withLog ev o = some (n, ev')) :
    ∃ ev'', o = some (n, ev'') ∧ ev' = ev ++ ev'' := by
  cases o with
  | none => simp [withLog] at h
  | some p =>
      obtain ⟨m, e⟩ := p
      simp only [withLog, Option.some.injEq, Prod.mk.injEq] at h
      exact ⟨e, by rw [h.1], h.2.symm⟩

theorem inOrder_insertFixup {k h : Int} {l r : Node} {key : Int} {n : Node}
    {ev : List Event} (hf : insertFixup k h l r key = some (n, ev)) :
    inOrder n = inOrder l ++ k :: inOrder r := by
  unfold insertFixup at hf
  simp only at hf
  split at hf
  · simp at hf
  · obtain ⟨ev', h1, -⟩ := withLog_eq_some hf
    rw [inOrder_rightRotate h1]; simp [updateHeight, inOrder]
  · split at hf
    · simp at hf
    · obtain ⟨ev', h1, -⟩ := withLog_eq_some hf
      rw [inOrder_leftRotate h1]; simp [updateHeight, inOrder]
    · split at hf
      · simp at hf
      · split at hf
        · simp at hf
        · rename_i l' ev1 hl
          obtain ⟨ev', h1, -⟩ := withLog_eq_some hf
          rw [inOrder_rightRotate h1]; simp [inOrder, inOrder_leftRotate hl]
      · split at hf
        · simp at hf
        · split at hf
          · simp at hf
          · rename_i r' ev1 hr
            obtain ⟨ev', h1, -⟩ := withLog_eq_some hf
            rw [inOrder_leftRotate h1]; simp [inOrder, inOrder_rightRotate hr]
        · simp only [Option.some.injEq, Prod.mk.injEq] at hf
          rw [← hf.1]; simp [updateHeight, inOrder]

theorem insertFixup_shape {k h : Int} {l r : Node} {key : Int}
    (hl : HeightsOK l) (bl : Balanced l) (hr : HeightsOK r) (br : Balanced r)
    (hc : |getHeight l - getHeight r| ≤ 1 ∨ (getHeight l = getHeight r + 2 ∧ Grown key l) ∨
      (getHeight r = getHeight l + 2 ∧ Grown key r)) :
    ∃ n ev, insertFixup k h l r key = some (n, ev) ∧ HeightsOK n ∧ Balanced n ∧
      ((|getHeight l - getHeight r| ≤ 1 ∧
          n = .node k (max (getHeight l) (getHeight r) + 1) l r ∧ ev = []) ∨
       (1 < |getHeight l - getHeight r| ∧
          getHeight n = max (getHeight l) (getHeight r) ∧ ev ≠ [])) := by
  rcases hc with hc | ⟨hc, hg⟩ | ⟨hc, hg⟩
  · have hc' := abs_le.mp hc
    have h1 : ¬ (getHeight l - getHeight r > 1) := by omega
    have h2 : ¬ (getHeight l - getHeight r < -1) := by omega
    refine ⟨.node k (max (getHeight l) (getHeight r) + 1) l r, [], ?_, ?_, ?_, ?_⟩
    · simp [insertFixup, h1, h2]
    · exact ⟨hl, hr, by omega⟩
    · exact ⟨bl, br, hc⟩
    · exact Or.inl ⟨hc, rfl, rfl⟩
  · have hr0 := getHeight_nonneg hr
    cases l with
    | null => exact absurd hg (by simp [Grown])
    | node lk lh ll lr =>
      obtain ⟨hll, hlr, elh⟩ := hl
      obtain ⟨bll, blr, bb⟩ := bl
      have bb' := abs_le.mp bb
      have hll0 := getHeight_nonneg hll
      have hlr0 := getHeight_nonneg hlr
      obtain ⟨g1, g2, g3⟩ := hg
      simp only [getHeight_node] at hc
      have h1 : lh - getHeight r > 1 := by omega
      have h2 : ¬ (lh - getHeight r < -1) := by omega
      have habs : 1 < |getHeight (Node.node lk lh ll lr) - getHeight r| := by
        simp only [getHeight_node]; rw [lt_abs]; left; omega
      rcases lt_trichotomy key lk with hk | hk | hk
      · have e := g1 hk
        refine ⟨.node lk (max (getHeight ll) (max (getHeight lr) (getHeight r) + 1) + 1) ll
          (.node k (max (getHeight lr) (getHeight r) + 1) lr r),
          [Event.imbalance Case.leftLeft k, Event.rightRotation k], ?_, ?_, ?_, ?_⟩
        · simp [insertFixup, hk, h1]
        · exact ⟨hll, ⟨hlr, hr, by omega⟩, by simp only [getHeight_node]; omega⟩
        · refine ⟨bll, ⟨blr, br, ?_⟩, ?_⟩
          · rw [abs_le]; omega
          · simp only [getHeight_node]; rw [abs_le]; omega
        · refine Or.inr ⟨habs, ?_, by simp⟩
          simp only [getHeight_node]; omega
      · have := g3 hk
        omega
      · have e := g2 hk
        cases lr with
        | null => simp only [getHeight_node, getHeight_null] at e; omega
        | node mk mh ml mr =>
          obtain ⟨hml, hmr, emh⟩ := hlr
          obtain ⟨bml, bmr, bm⟩ := blr
          have bm' := abs_le.mp bm
          simp only [getHeight_node] at e bb' elh hlr0
          have hk1 : ¬ key < lk := by omega
          refine ⟨.node mk (max (max (getHeight ll) (getHeight ml) + 1)
              (max (getHeight mr) (getHeight r) + 1) + 1)
            (.node lk (max (getHeight ll) (getHeight ml) + 1) ll ml)
            (.node k (max (getHeight mr) (getHeight r) + 1) mr r),
            [Event.imbalance Case.leftRight k, Event.leftRotation lk, Event.rightRotation k],
            ?_, ?_, ?_, ?_⟩
          · simp [insertFixup, hk, hk1, h1, h2]
          · exact ⟨⟨hll, hml, by omega⟩, ⟨hmr, hr, by omega⟩, by simp only [getHeight_node]; omega⟩
          · refine ⟨⟨bll, bml, ?_⟩, ⟨bmr, br, ?_⟩, ?_⟩
            · rw [abs_le]; omega
            · rw [abs_le]; omega
            · simp only [getHeight_node]; rw [abs_le]; omega
          · refine Or.inr ⟨habs, ?_, by simp⟩
            simp only [getHeight_node]; omega
  · have hl0 := getHeight_nonneg hl
    cases r with
    | null => exact absurd hg (by simp [Grown])
    | node rk rh rl rr =>
      obtain ⟨hrl, hrr, erh⟩ := hr
      obtain ⟨brl, brr, bb⟩ := br
      have bb' := abs_le.mp bb
      have hrl0 := getHeight_nonneg hrl
      have hrr0 := getHeight_nonneg hrr
      obtain ⟨g1, g2, g3⟩ := hg
      simp only [getHeight_node] at hc
      have h1 : ¬ (getHeight l - rh > 1) := by omega
      have h2 : getHeight l - rh < -1 := by omega
      have habs : 1 < |getHeight l - getHeight (Node.node rk rh rl rr)| := by
        simp only [getHeight_node]; rw [lt_abs]; right; omega
      rcases lt_trichotomy key rk with hk | hk | hk
      · have e := g1 hk
        cases rl with
        | null => simp only [getHeight_node, getHeight_null] at e; omega
        | node mk mh ml mr =>
          obtain ⟨hml, hmr, emh⟩ := hrl
          obtain ⟨bml, bmr, bm⟩ := brl
          have bm' := abs_le.mp bm
          simp only [getHeight_node] at e bb' erh hrl0
          have hk1 : ¬ rk < key := by omega
          refine ⟨.node mk (max (max (getHeight l) (getHeight ml) + 1)
              (max (getHeight mr) (getHeight rr) + 1) + 1)
            (.node k (max (getHeight l) (getHeight ml) + 1) l ml)
            (.node rk (max (getHeight mr) (getHeight rr) + 1) mr rr),
            [Event.imbalance Case.rightLeft k, Event.rightRotation rk, Event.leftRotation k],
            ?_, ?_, ?_, ?_⟩
          · simp [insertFixup, hk, hk1, h1, h2]
          · exact ⟨⟨hl, hml, by omega⟩, ⟨hmr, hrr, by omega⟩, by simp only [getHeight_node]; omega⟩
          · refine ⟨⟨bl, bml, ?_⟩, ⟨bmr, brr, ?_⟩, ?_⟩
            · rw [abs_le]; omega
            · rw [abs_le]; omega
            · simp only [getHeight_node]; rw [abs_le]; omega
          · refine Or.inr ⟨habs, ?_, by simp⟩
            simp only [getHeight_node]; omega
      · have := g3 hk
        omega
      · have e := g2 hk
        refine ⟨.node rk (max (max (getHeight l) (getHeight rl) + 1) (getHeight rr) + 1)
          (.node k (max (getHeight l) (getHeight rl) + 1) l rl) rr,
          [Event.imbalance Case.rightRight k, Event.leftRotation k], ?_, ?_, ?_, ?_⟩
        · simp [insertFixup, hk, h1, h2]
        · exact ⟨⟨hl, hrl, by omega⟩, hrr, by simp only [getHeight_node]; omega⟩
        · refine ⟨⟨bl, brl, ?_⟩, brr, ?_⟩
          · rw [abs_le]; omega
          · simp only [getHeight_node]; rw [abs_le]; omega
        · refine Or.inr ⟨habs, ?_, by simp⟩
          simp only [getHeight_node]; omega

theorem insertNode_shape (key : Int) : ∀ {t : Node}, HeightsOK t → Balanced t →
    ∃ t' ev, insertNode t key = some (t', ev) ∧ HeightsOK t' ∧ Balanced t' ∧
      (getHeight t' = getHeight t ∨ (getHeight t' = getHeight t + 1 ∧ Grown key t'))
  | .null, _, _ =>
      ⟨.node key 1 .null .null, [], rfl, ⟨trivial, trivial, by simp⟩,
        ⟨trivial, trivial, by simp⟩, Or.inr ⟨by simp, by simp [Grown]⟩⟩
  | .node k h l r, ho, hb => by
      obtain ⟨hl, hr, eh⟩ := ho
      obtain ⟨bl, br, bb⟩ := hb
      have bb' := abs_le.mp bb
      by_cases hk : key < k
      · obtain ⟨l', ev, e, hl', bl', hg⟩ := insertNode_shape key hl bl
        have hc : |getHeight l' - getHeight r| ≤ 1 ∨
            (getHeight l' = getHeight r + 2 ∧ Grown key l') ∨
            (getHeight r = getHeight l' + 2 ∧ Grown key r) := by
          rcases hg with hg | ⟨hg, gr⟩
          · left; rw [abs_le]; omega
          · by_cases h2 : getHeight l' = getHeight r + 2
            · exact Or.inr (Or.inl ⟨h2, gr⟩)
            · left; rw [abs_le]; omega
        obtain ⟨n, ev2, ef, hn, bn, hcase⟩ := @insertFixup_shape k h l' r key
          hl' bl' hr br hc
        refine ⟨n, ev ++ ev2, by simp [insertNode, hk, e, ef], hn, bn, ?_⟩
        rcases hcase with ⟨ha, rfl, -⟩ | ⟨ha, hh, -⟩
        · have ha' := abs_le.mp ha
          simp only [getHeight_node]
          by_cases hsame : max (getHeight l') (getHeight r) + 1 = h
          · exact Or.inl hsame
          · refine Or.inr ⟨by omega, ?_, ?_, ?_⟩
            · intro _; omega
            · intro h'; omega
            · intro h'; omega
        · rw [lt_abs] at ha
          left; simp only [getHeight_node]; omega
      · by_cases hk2 : key > k
        · obtain ⟨r', ev, e, hr', br', hg⟩ := insertNode_shape key hr br
          have hc : |getHeight l - getHeight r'| ≤ 1 ∨
              (getHeight l = getHeight r' + 2 ∧ Grown key l) ∨
              (getHeight r' = getHeight l + 2 ∧ Grown key r') := by
            rcases hg with hg | ⟨hg, gr⟩
            · left; rw [abs_le]; omega
            · by_cases h2 : getHeight r' = getHeight l + 2
              · exact Or.inr (Or.inr ⟨h2, gr⟩)
              · left; rw [abs_le]; omega
          obtain ⟨n, ev2, ef, hn, bn, hcase⟩ := @insertFixup_shape k h l r' key
            hl bl hr' br' hc
          refine ⟨n, ev ++ ev2, by simp [insertNode, hk, hk2, e, ef], hn, bn, ?_⟩
          rcases hcase with ⟨ha, rfl, -⟩ | ⟨ha, hh, -⟩
          · have ha' := abs_le.mp ha
            simp only [getHeight_node]
            by_cases hsame : max (getHeight l) (getHeight r') + 1 = h
            · exact Or.inl hsame
            · refine Or.inr ⟨by omega, ?_, ?_, ?_⟩
              · intro h'; omega
              · intro _; omega
              · intro h'; omega
          · rw [lt_abs] at ha
            left; simp only [getHeight_node]; omega
        · exact ⟨.node k h l r, [], by simp [insertNode, hk, hk2], ⟨hl, hr, eh⟩,
            ⟨bl, br, bb⟩, Or.inl rfl⟩

theorem mem_inOrder_insertNode {key : Int} : ∀ {t t' : Node} {ev : List Event},
    insertNode t key = some (t', ev) → ∀ x, x ∈ inOrder t' ↔ x = key ∨ x ∈ inOrder t
  | .null, t', ev, h, x => by
      simp only [insertNode, Option.some.injEq, Prod.mk.injEq] at h
      rw [← h.1]; simp
  | .node k hh l r, t', ev, h, x => by
      unfold insertNode at h
      split at h
      · split at h
        · simp at h
        · rename_i l' ev1 e
          obtain ⟨ev2, hf, -⟩ := withLog_eq_some h
          rw [inOrder_insertFixup hf]
          have ih := mem_inOrder_insertNode e x
          simp only [List.mem_append, List.mem_cons, inOrder_node, ih]
          tauto
      · split at h
        · split at h
          · simp at h
          · rename_i r' ev1 e
            obtain ⟨ev2, hf, -⟩ := withLog_eq_some h
            rw [inOrder_insertFixup hf]
            have ih := mem_inOrder_insertNode e x
            simp only [List.mem_append, List.mem_cons, inOrder_node, ih]
            tauto
        · simp only [Option.some.injEq, Prod.mk.injEq] at h
          rw [← h.1]
          have : x = key → x = k := by intro hx; omega
          simp only [List.mem_append, List.mem_cons, inOrder_node]
          tauto

theorem BST_iff_pairwise : ∀ (t : Node), BST t ↔ (inOrder t).Pairwise (· < ·)
  | .null => by simp [BST]
  | .node k h l r => by
      simp only [BST, inOrder_node, List.pairwise_append, List.pairwise_cons,
        List.mem_cons, BST_iff_pairwise l, BST_iff_pairwise r]
      constructor
      · rintro ⟨pl, pr, hl, hr⟩
        refine ⟨pl, ⟨hr, pr⟩, ?_⟩
        rintro a ha b (rfl | hb)
        · exact hl a ha
        · exact lt_trans (hl a ha) (hr b hb)
      · rintro ⟨pl, ⟨hr, pr⟩, hall⟩
        exact ⟨pl, pr, fun a ha => hall a ha k (Or.inl rfl), hr⟩

theorem BST_insertNode {key : Int} : ∀ {t t' : Node} {ev : List Event},
    BST t → insertNode t key = some (t', ev) → BST t'
  | .null, t', ev, _, h => by
      simp only [insertNode, Option.some.injEq, Prod.mk.injEq] at h
      rw [← h.1]; simp [BST]
  | .node k hh l r, t', ev, hb, h => by
      obtain ⟨bl, br, ltl, ltr⟩ := hb
      unfold insertNode at h
      split at h
      · rename_i hk
        split at h
        · simp at h
        · rename_i l' ev1 e
          obtain ⟨ev2, hf, -⟩ := withLog_eq_some h
          rw [BST_iff_pairwise, inOrder_insertFixup hf, ← inOrder_node k hh l' r,
            ← BST_iff_pairwise]
          refine ⟨BST_insertNode bl e, br, ?_, ltr⟩
          intro x hx
          rcases (mem_inOrder_insertNode e x).mp hx with rfl | hx
          · exact hk
          · exact ltl x hx
      · split at h
        · rename_i hk
          split at h
          · simp at h
          · rename_i r' ev1 e
            obtain ⟨ev2, hf, -⟩ := withLog_eq_some h
            rw [BST_iff_pairwise, inOrder_insertFixup hf, ← inOrder_node k hh l r',
              ← BST_iff_pairwise]
            refine ⟨bl, BST_insertNode br e, ltl, ?_⟩
            intro x hx
            rcases (mem_inOrder_insertNode e x).mp hx with rfl | hx
            · exact hk
            · exact ltr x hx
        · simp only [Option.some.injEq, Prod.mk.injEq] at h
          rw [← h.1]; exact ⟨bl, br, ltl, ltr⟩

theorem inOrder_deleteFixup {k h : Int} {l r : Node} {n : Node}
    {ev : List Event} (hf : deleteFixup k h l r = some (n, ev)) :
    inOrder n = inOrder l ++ k :: inOrder r := by
  unfold deleteFixup at hf
  simp only at hf
  split at hf
  · obtain ⟨ev', h1, -⟩ := withLog_eq_some hf
    rw [inOrder_rightRotate h1]; simp
  · split at hf
    · split at hf
      · simp at hf
      · rename_i l' ev1 hl
        obtain ⟨ev', h1, -⟩ := withLog_eq_some hf
        rw [inOrder_rightRotate h1]; simp [inOrder_leftRotate hl]
    · split at hf
      · obtain ⟨ev', h1, -⟩ := withLog_eq_some hf
        rw [inOrder_leftRotate h1]; simp
      · split at hf
        · split at hf
          · simp at hf
          · rename_i r' ev1 hr
            obtain ⟨ev', h1, -⟩ := withLog_eq_some hf
            rw [inOrder_leftRotate h1]; simp [inOrder_rightRotate hr]
        · simp only [Option.some.injEq, Prod.mk.injEq] at hf
          rw [← hf.1]; simp

theorem deleteFixup_shape {k h : Int} {l r : Node}
    (hl : HeightsOK l) (bl : Balanced l) (hr : HeightsOK r) (br : Balanced r)
    (hc : |getHeight l - getHeight r| ≤ 2) :
    ∃ n ev, deleteFixup k h l r = some (n, ev) ∧ HeightsOK n ∧ Balanced n ∧
      ((|getHeight l - getHeight r| ≤ 1 ∧
          n = .node k (max (getHeight l) (getHeight r) + 1) l r ∧ ev = []) ∨
       (1 < |getHeight l - getHeight r| ∧ ev ≠ [] ∧
          (getHeight n = max (getHeight l) (getHeight r) ∨
           getHeight n = max (getHeight l) (getHeight r) + 1))) := by
  have hc' := abs_le.mp hc
  have hl0 := getHeight_nonneg hl
  have hr0 := getHeight_nonneg hr
  by_cases hbal : |getHeight l - getHeight r| ≤ 1
  · have hb' := abs_le.mp hbal
    have h1 : ¬ (getHeight l - getHeight r > 1) := by omega
    have h2 : ¬ (getHeight l - getHeight r < -1) := by omega
    refine ⟨.node k (max (getHeight l) (getHeight r) + 1) l r, [], ?_, ?_, ?_, ?_⟩
    · simp [deleteFixup, h1, h2]
    · exact ⟨hl, hr, by omega⟩
    · exact ⟨bl, br, hbal⟩
    · exact Or.inl ⟨hbal, rfl, rfl⟩
  · have habs : 1 < |getHeight l - getHeight r| := lt_of_not_le hbal
    rcases lt_abs.mp habs with h2 | h2
    · -- left-heavy
      cases l with
      | null => simp only [getHeight_null] at h2; omega
      | node lk lh ll lr =>
        obtain ⟨hll, hlr, elh⟩ := hl
        obtain ⟨bll, blr, bb⟩ := bl
        have bb' := abs_le.mp bb
        have hll0 := getHeight_nonneg hll
        have hlr0 := getHeight_nonneg hlr
        simp only [getHeight_node] at h2 hc' hl0
        have h1 : 1 < lh - getHeight r := by omega
        by_cases hbl : getHeight ll - getHeight lr ≥ 0
        · refine ⟨.node lk (max (getHeight ll) (max (getHeight lr) (getHeight r) + 1) + 1) ll
            (.node k (max (getHeight lr) (getHeight r) + 1) lr r),
            [Event.imbalance Case.leftLeft k, Event.rightRotation k], ?_, ?_, ?_, ?_⟩
          · simp [deleteFixup, h1, hbl]
          · exact ⟨hll, ⟨hlr, hr, by omega⟩, by simp only [getHeight_node]; omega⟩
          · refine ⟨bll, ⟨blr, br, ?_⟩, ?_⟩
            · rw [abs_le]; omega
            · simp only [getHeight_node]; rw [abs_le]; omega
          · refine Or.inr ⟨habs, by simp, ?_⟩
            simp only [getHeight_node]; omega
        · cases lr with
          | null => simp only [getHeight_null] at hbl; omega
          | node mk mh ml mr =>
            obtain ⟨hml, hmr, emh⟩ := hlr
            obtain ⟨bml, bmr, bm⟩ := blr
            have bm' := abs_le.mp bm
            simp only [getHeight_node] at hbl bb' elh hlr0
            have hbl' : getHeight ll - mh < 0 := by omega
            have hbl'' : ¬ (0 ≤ getHeight ll - mh) := by omega
            refine ⟨.node mk (max (max (getHeight ll) (getHeight ml) + 1)
                (max (getHeight mr) (getHeight r) + 1) + 1)
              (.node lk (max (getHeight ll) (getHeight ml) + 1) ll ml)
              (.node k (max (getHeight mr) (getHeight r) + 1) mr r),
              [Event.imbalance Case.leftRight k, Event.leftRotation lk, Event.rightRotation k],
              ?_, ?_, ?_, ?_⟩
            · simp [deleteFixup, h1, hbl', hbl'']
            · exact ⟨⟨hll, hml, by omega⟩, ⟨hmr, hr, by omega⟩,
                by simp only [getHeight_node]; omega⟩
            · refine ⟨⟨bll, bml, ?_⟩, ⟨bmr, br, ?_⟩, ?_⟩
              · rw [abs_le]; omega
              · rw [abs_le]; omega
              · simp only [getHeight_node]; rw [abs_le]; omega
            · refine Or.inr ⟨habs, by simp, ?_⟩
              simp only [getHeight_node]; omega
    · -- right-heavy
      cases r with
      | null => simp only [getHeight_null] at h2; omega
      | node rk rh rl rr =>
        obtain ⟨hrl, hrr, erh⟩ := hr
        obtain ⟨brl, brr, bb⟩ := br
        have bb' := abs_le.mp bb
        have hrl0 := getHeight_nonneg hrl
        have hrr0 := getHeight_nonneg hrr
        simp only [getHeight_node] at h2 hc' hr0
        have h1 : ¬ (1 < getHeight l - rh) := by omega
        have h3 : getHeight l - rh < -1 := by omega
        by_cases hbr : getHeight rl - getHeight rr ≤ 0
        · refine ⟨.node rk (max (max (getHeight l) (getHeight rl) + 1) (getHeight rr) + 1)
            (.node k (max (getHeight l) (getHeight rl) + 1) l rl) rr,
            [Event.imbalance Case.rightRight k, Event.leftRotation k], ?_, ?_, ?_, ?_⟩
          · simp [deleteFixup, h1, h3, hbr]
          · exact ⟨⟨hl, hrl, by omega⟩, hrr, by simp only [getHeight_node]; omega⟩
          · refine ⟨⟨bl, brl, ?_⟩, brr, ?_⟩
            · rw [abs_le]; omega
            · simp only [getHeight_node]; rw [abs_le]; omega
          · refine Or.inr ⟨habs, by simp, ?_⟩
            simp only [getHeight_node]; omega
        · cases rl with
          | null => simp only [getHeight_null] at hbr; omega
          | node mk mh ml mr =>
            obtain ⟨hml, hmr, emh⟩ := hrl
            obtain ⟨bml, bmr, bm⟩ := brl
            have bm' := abs_le.mp bm
            simp only [getHeight_node] at hbr bb' erh hrl0
            have hbr' : 0 < mh - getHeight rr := by omega
            have hbr'' : ¬ (mh - getHeight rr ≤ 0) := by omega
            refine ⟨.node mk (max (max (getHeight l) (getHeight ml) + 1)
                (max (getHeight mr) (getHeight rr) + 1) + 1)
              (.node k (max (getHeight l) (getHeight ml) + 1) l ml)
              (.node rk (max (getHeight mr) (getHeight rr) + 1) mr rr),
              [Event.imbalance Case.rightLeft k, Event.rightRotation rk, Event.leftRotation k],
              ?_, ?_, ?_, ?_⟩
            · simp [deleteFixup, h1, h3, hbr', hbr'']
            · exact ⟨⟨hl, hml, by omega⟩, ⟨hmr, hrr, by omega⟩,
                by simp only [getHeight_node]; omega⟩
            · refine ⟨⟨bl, bml, ?_⟩, ⟨bmr, brr, ?_⟩, ?_⟩
              · rw [abs_le]; omega
              · rw [abs_le]; omega
              · simp only [getHeight_node]; rw [abs_le]; omega
            · refine Or.inr ⟨habs, by simp, ?_⟩
              simp only [getHeight_node]; omega

theorem minValueNode_key : ∀ (k h : Int) (l r : Node),
    ∃ m, (minValueNode (.node k h l r)).bind keyOf = some m ∧
      m ∈ inOrder (.node k h l r) ∧
      (BST (.node k h l r) → ∀ x ∈ inOrder (.node k h l r), m ≤ x)
  | k, h, .null, r => by
      refine ⟨k, rfl, by simp, ?_⟩
      rintro ⟨-, -, -, hr⟩ x hx
      simp only [inOrder_node, inOrder_null, List.nil_append, List.mem_cons] at hx
      rcases hx with rfl | hx
      · exact le_refl _
      · exact le_of_lt (hr x hx)
  | k, h, .node lk lh ll lr, r => by
      obtain ⟨m, e, hm, hmin⟩ := minValueNode_key lk lh ll lr
      refine ⟨m, by simpa [minValueNode] using e, ?_, ?_⟩
      · rw [inOrder_node]; exact List.mem_append_left _ hm
      · rintro ⟨bl, -, hl, hr⟩ x hx
        have hmk : m < k := hl m hm
        rw [inOrder_node, List.mem_append, List.mem_cons] at hx
        rcases hx with hx | rfl | hx
        · exact hmin bl x hx
        · exact le_of_lt hmk
        · exact le_of_lt (lt_trans hmk (hr x hx))

theorem deleteNode_of_lt {k h : Int} {l r : Node} {key : Int} (hk : key < k) :
    deleteNode (.node k h l r) key =
      match deleteNode l key with
      | none => none
      | some (l', ev) => withLog ev (deleteFixup k h l' r) := by
  cases l <;> cases r <;> simp [deleteNode, hk]

theorem deleteNode_of_gt {k h : Int} {l r : Node} {key : Int} (hk : k < key) :
    deleteNode (.node k h l r) key =
      match deleteNode r key with
      | none => none
      | some (r', ev) => withLog ev (deleteFixup k h l r') := by
  have hk' : ¬ key < k := by omega
  cases l <;> cases r <;> simp [deleteNode, hk, hk']

theorem deleteNode_shape : ∀ {t : Node} (key : Int), HeightsOK t → Balanced t →
    ∃ t' ev, deleteNode t key = some (t', ev) ∧ HeightsOK t' ∧ Balanced t' ∧
      (getHeight t' = getHeight t ∨ getHeight t' = getHeight t - 1)
  | .null, _, _, _ => ⟨.null, [], rfl, trivial, trivial, Or.inl rfl⟩
  | .node k h l r, key, ho, hb => by
      obtain ⟨hl, hr, eh⟩ := ho
      obtain ⟨bl, br, bb⟩ := hb
      have bb' := abs_le.mp bb
      have hl0 := getHeight_nonneg hl
      have hr0 := getHeight_nonneg hr
      by_cases hk : key < k
      · obtain ⟨l', ev, e, hl', bl', hg⟩ := deleteNode_shape key hl bl
        obtain ⟨n, ev2, ef, hn, bn, hcase⟩ := @deleteFixup_shape k h l' r
          hl' bl' hr br (by rw [abs_le]; omega)
        refine ⟨n, ev ++ ev2, by simp [deleteNode_of_lt hk, e, ef], hn, bn, ?_⟩
        rcases hcase with ⟨ha, rfl, -⟩ | ⟨ha, -, hh⟩
        · simp only [getHeight_node]; omega
        · rw [lt_abs] at ha
          simp only [getHeight_node]; omega
      · by_cases hk2 : key > k
        · obtain ⟨r', ev, e, hr', br', hg⟩ := deleteNode_shape key hr br
          obtain ⟨n, ev2, ef, hn, bn, hcase⟩ := @deleteFixup_shape k h l r'
            hl bl hr' br' (by rw [abs_le]; omega)
          refine ⟨n, ev ++ ev2, by simp [deleteNode_of_gt hk2, e, ef], hn, bn, ?_⟩
          rcases hcase with ⟨ha, rfl, -⟩ | ⟨ha, -, hh⟩
          · simp only [getHeight_node]; omega
          · rw [lt_abs] at ha
            simp only [getHeight_node]; omega
        · cases l with
          | null =>
              refine ⟨r, [], by simp [deleteNode, hk, hk2], hr, br, ?_⟩
              simp only [getHeight_node, getHeight_null] at *; omega
          | node lk lh ll lr =>
            cases r with
            | null =>
                refine ⟨.node lk lh ll lr, [], by simp [deleteNode, hk, hk2], hl, bl, ?_⟩
                simp only [getHeight_node, getHeight_null] at *; omega
            | node rk rh rl rr =>
                obtain ⟨m, em, -, -⟩ := minValueNode_key rk rh rl rr
                obtain ⟨r', ev, e, hr', br', hg⟩ := deleteNode_shape m hr br
                simp only [getHeight_node] at bb' hg eh hl0 hr0
                obtain ⟨n, ev2, ef, hn, bn, hcase⟩ := @deleteFixup_shape m h _ r'
                  hl bl hr' br' (by rw [abs_le]; simp only [getHeight_node]; omega)
                simp only [getHeight_node] at hcase
                refine ⟨n, ev ++ ev2, by simp [deleteNode, hk, hk2, em, e, ef], hn, bn, ?_⟩
                rcases hcase with ⟨ha, rfl, -⟩ | ⟨ha, -, hh⟩
                · simp only [getHeight_node]; omega
                · rw [lt_abs] at ha
                  simp only [getHeight_node]; omega

theorem deleteNode_keys : ∀ {t : Node} (key : Int) {t' : Node} {ev : List Event},
    BST t → deleteNode t key = some (t', ev) →
      BST t' ∧ ∀ x, x ∈ inOrder t' ↔ x ∈ inOrder t ∧ x ≠ key
  | .null, key, t', ev, _, h => by
      simp only [deleteNode, Option.some.injEq, Prod.mk.injEq] at h
      rw [← h.1]; simp [BST]
  | .node k hh l r, key, t', ev, hb, h => by
      obtain ⟨bl, br, ltl, ltr⟩ := hb
      by_cases hk : key < k
      · rw [deleteNode_of_lt hk] at h
        split at h
        · simp at h
        · rename_i l' ev1 e
          obtain ⟨ev2, hf, -⟩ := withLog_eq_some h
          obtain ⟨bl', ml'⟩ := deleteNode_keys key bl e
          constructor
          · rw [BST_iff_pairwise, inOrder_deleteFixup hf, ← inOrder_node k hh l' r,
              ← BST_iff_pairwise]
            exact ⟨bl', br, fun x hx => ltl x ((ml' x).mp hx).1, ltr⟩
          · intro x
            rw [inOrder_deleteFixup hf]
            simp only [List.mem_append, List.mem_cons, inOrder_node, ml']
            constructor
            · rintro (⟨h1, h2⟩ | rfl | h1)
              · exact ⟨Or.inl h1, h2⟩
              · exact ⟨Or.inr (Or.inl rfl), by omega⟩
              · exact ⟨Or.inr (Or.inr h1), by have := ltr x h1; omega⟩
            · rintro ⟨h1 | h1 | h1, h2⟩
              · exact Or.inl ⟨h1, h2⟩
              · exact Or.inr (Or.inl h1)
              · exact Or.inr (Or.inr h1)
      · by_cases hk2 : key > k
        · rw [deleteNode_of_gt hk2] at h
          split at h
          · simp at h
          · rename_i r' ev1 e
            obtain ⟨ev2, hf, -⟩ := withLog_eq_some h
            obtain ⟨br', mr'⟩ := deleteNode_keys key br e
            constructor
            · rw [BST_iff_pairwise, inOrder_deleteFixup hf, ← inOrder_node k hh l r',
                ← BST_iff_pairwise]
              exact ⟨bl, br', ltl, fun x hx => ltr x ((mr' x).mp hx).1⟩
            · intro x
              rw [inOrder_deleteFixup hf]
              simp only [List.mem_append, List.mem_cons, inOrder_node, mr']
              constructor
              · rintro (h1 | rfl | ⟨h1, h2⟩)
                · exact ⟨Or.inl h1, by have := ltl x h1; omega⟩
                · exact ⟨Or.inr (Or.inl rfl), by omega⟩
                · exact ⟨Or.inr (Or.inr h1), h2⟩
              · rintro ⟨h1 | h1 | h1, h2⟩
                · exact Or.inl h1
                · exact Or.inr (Or.inl h1)
                · exact Or.inr (Or.inr ⟨h1, h2⟩)
        · have hkey : key = k := by omega
          subst hkey
          cases l with
          | null =>
              simp only [deleteNode, hk, if_false, Option.some.injEq, Prod.mk.injEq] at h
              rw [← h.1]
              refine ⟨br, fun x => ?_⟩
              simp only [inOrder_node, inOrder_null, List.nil_append, List.mem_cons]
              constructor
              · intro hx; exact ⟨Or.inr hx, by have := ltr x hx; omega⟩
              · rintro ⟨h1 | h1, h2⟩
                · exact absurd h1 h2
                · exact h1
          | node lk lh ll lr =>
            cases r with
            | null =>
                simp only [deleteNode, hk, if_false, Option.some.injEq, Prod.mk.injEq] at h
                rw [← h.1]
                refine ⟨bl, fun x => ?_⟩
                simp only [inOrder_node, inOrder_null, List.mem_append, List.mem_cons,
                  List.not_mem_nil, or_false]
                constructor
                · intro hx
                  have := ltl x (by simpa using hx)
                  exact ⟨Or.inl hx, by omega⟩
                · rintro ⟨h1 | h1, h2⟩
                  · exact h1
                  · exact absurd h1 h2
            | node rk rh rl rr =>
                obtain ⟨m, em, hm, hmin⟩ := minValueNode_key rk rh rl rr
                simp only [deleteNode, hk, if_false, em] at h
                split at h
                · simp at h
                · rename_i r' ev1 e
                  obtain ⟨ev2, hf, -⟩ := withLog_eq_some h
                  obtain ⟨br', mr'⟩ := deleteNode_keys m br e
                  have hkm : key < m := ltr m hm
                  constructor
                  · rw [BST_iff_pairwise, inOrder_deleteFixup hf,
                      ← inOrder_node m hh (.node lk lh ll lr) r', ← BST_iff_pairwise]
                    refine ⟨bl, br', fun x hx => lt_trans (ltl x hx) hkm, fun x hx => ?_⟩
                    obtain ⟨h1, h2⟩ := (mr' x).mp hx
                    exact lt_of_le_of_ne (hmin br x h1) (Ne.symm h2)
                  · intro x
                    rw [inOrder_deleteFixup hf, List.mem_append, List.mem_cons, mr',
                      inOrder_node key hh, List.mem_append, List.mem_cons]
                    constructor
                    · rintro (h1 | rfl | ⟨h1, h2⟩)
                      · exact ⟨Or.inl h1, by have := ltl x h1; omega⟩
                      · exact ⟨Or.inr (Or.inr hm), by omega⟩
                      · exact ⟨Or.inr (Or.inr h1), by have := ltr x h1; omega⟩
                    · rintro ⟨h1 | h1 | h1, h2⟩
                      · exact Or.inl h1
                      · exact absurd h1 h2
                      · by_cases hxm : x = m
                        · exact Or.inr (Or.inl hxm)
                        · exact Or.inr (Or.inr ⟨h1, hxm⟩)

/-! ## Preservation of the invariants -/

theorem Inv_insertNode {t : Node} (key : Int) (h : Inv t) :
    ∃ t' ev, insertNode t key = some (t', ev) ∧ Inv t' ∧
      ∀ x, x ∈ inOrder t' ↔ x = key ∨ x ∈ inOrder t := by
  obtain ⟨hb, hbal, hh⟩ := h
  obtain ⟨t', ev, e, hh', hbal', -⟩ := insertNode_shape key hh hbal
  exact ⟨t', ev, e, ⟨BST_insertNode hb e, hbal', hh'⟩, mem_inOrder_insertNode e⟩

theorem Inv_deleteNode {t : Node} (key : Int) (h : Inv t) :
    ∃ t' ev, deleteNode t key = some (t', ev) ∧ Inv t' ∧
      ∀ x, x ∈ inOrder t' ↔ x ∈ inOrder t ∧ x ≠ key := by
  obtain ⟨hb, hbal, hh⟩ := h
  obtain ⟨t', ev, e, hh', hbal', -⟩ := deleteNode_shape key hh hbal
  obtain ⟨hb', hm⟩ := deleteNode_keys key hb e
  exact ⟨t', ev, e, ⟨hb', hbal', hh'⟩, hm⟩

theorem Inv_step {t : AVLTree} (op : Op) (h : Inv t.root) :
    ∃ t' ev, step t op = some (t', ev) ∧ Inv t'.root ∧
      (inOrder t'.root).toFinset = replay [op] (inOrder t.root).toFinset := by
  cases op with
  | insert k =>
      obtain ⟨n, ev, e, hi, hm⟩ := Inv_insertNode k h
      refine ⟨⟨n⟩, ev, by simp [step, AVLTree.insert, e], hi, ?_⟩
      ext x; simp [replay, hm]
  | remove k =>
      obtain ⟨n, ev, e, hi, hm⟩ := Inv_deleteNode k h
      refine ⟨⟨n⟩, ev, by simp [step, AVLTree.remove, e], hi, ?_⟩
      ext x; simp [replay, hm]; tauto

theorem Inv_run : ∀ (ops : List Op) {t : AVLTree}, Inv t.root →
    ∃ t' ev, run ops t = some (t', ev) ∧ Inv t'.root ∧
      (inOrder t'.root).toFinset = replay ops (inOrder t.root).toFinset
  | [], t, h => ⟨t, [], rfl, h, rfl⟩
  | op :: ops, t, h => by
      obtain ⟨t1, ev1, e1, h1, m1⟩ := Inv_step op h
      obtain ⟨t2, ev2, e2, h2, m2⟩ := Inv_run ops h1
      refine ⟨t2, ev1 ++ ev2, by simp [run, e1, e2], h2, ?_⟩
      rw [m2, m1]
      cases op <;> rfl

theorem Inv_empty : Inv AVLTree.empty.root := ⟨trivial, trivial, trivial⟩

theorem insertFixup_balanced {k h : Int} {l r : Node} {key : Int}
    (hb : |getHeight l - getHeight r| ≤ 1) :
    insertFixup k h l r key =
      some (.node k (max (getHeight l) (getHeight r) + 1) l r, []) := by
  have hb' := abs_le.mp hb
  have h1 : ¬ (getHeight l - getHeight r > 1) := by omega
  have h2 : ¬ (getHeight l - getHeight r < -1) := by omega
  simp [insertFixup, h1, h2]

theorem deleteFixup_balanced {k h : Int} {l r : Node}
    (hb : |getHeight l - getHeight r| ≤ 1) :
    deleteFixup k h l r = some (.node k (max (getHeight l) (getHeight r) + 1) l r, []) := by
  have hb' := abs_le.mp hb
  have h1 : ¬ (getHeight l - getHeight r > 1) := by omega
  have h2 : ¬ (getHeight l - getHeight r < -1) := by omega
  simp [deleteFixup, h1, h2]

theorem insertNode_of_mem {key : Int} : ∀ {t : Node}, Inv t → key ∈ inOrder t →
    insertNode t key = some (t, [])
  | .null, _, hm => by simp at hm
  | .node k h l r, ⟨⟨bl, br, ltl, ltr⟩, ⟨ball, balr, bb⟩, ⟨hl, hr, eh⟩⟩, hm => by
      have hh : max (getHeight l) (getHeight r) + 1 = h := by omega
      rw [inOrder_node, List.mem_append, List.mem_cons] at hm
      by_cases hk : key < k
      · have hml : key ∈ inOrder l := by
          rcases hm with hm | hm | hm
          · exact hm
          · omega
          · have := ltr key hm; omega
        have ih := insertNode_of_mem ⟨bl, ball, hl⟩ hml
        simp [insertNode, hk, ih, insertFixup_balanced bb, hh]
      · by_cases hk2 : key > k
        · have hmr : key ∈ inOrder r := by
            rcases hm with hm | hm | hm
            · have := ltl key hm; omega
            · omega
            · exact hm
          have ih := insertNode_of_mem ⟨br, balr, hr⟩ hmr
          simp [insertNode, hk, hk2, ih, insertFixup_balanced bb, hh]
        · simp [insertNode, hk, hk2]

theorem deleteNode_of_not_mem {key : Int} : ∀ {t : Node}, Balanced t → HeightsOK t →
    key ∉ inOrder t → deleteNode t key = some (t, [])
  | .null, _, _, _ => rfl
  | .node k h l r, ⟨ball, balr, bb⟩, ⟨hl, hr, eh⟩, hm => by
      have hh : max (getHeight l) (getHeight r) + 1 = h := by omega
      rw [inOrder_node, List.mem_append, List.mem_cons] at hm
      push_neg at hm
      obtain ⟨hml, hmk, hmr⟩ := hm
      by_cases hk : key < k
      · have ih := deleteNode_of_not_mem ball hl hml
        simp [deleteNode_of_lt hk, ih, deleteFixup_balanced bb, hh]
      · have hk2 : k < key := by omega
        have ih := deleteNode_of_not_mem balr hr hmr
        simp [deleteNode_of_gt hk2, ih, deleteFixup_balanced bb, hh]

theorem searchNode_ne_null_iff : ∀ {t : Node} (key : Int), BST t →
    (searchNode t key ≠ .null ↔ key ∈ inOrder t)
  | .null, key, _ => by simp [searchNode]
  | .node k h l r, key, ⟨bl, br, ltl, ltr⟩ => by
      rw [inOrder_node, List.mem_append, List.mem_cons]
      by_cases h1 : k = key
      · simp [searchNode, h1]
      · by_cases h2 : key < k
        · simp only [searchNode, h1, h2, if_true, if_false]
          rw [searchNode_ne_null_iff key bl]
          constructor
          · exact Or.inl
          · rintro (h3 | h3 | h3)
            · exact h3
            · exact absurd h3.symm h1
            · have := ltr key h3; omega
        · simp only [searchNode, h1, h2, if_false]
          rw [searchNode_ne_null_iff key br]
          constructor
          · exact fun h3 => Or.inr (Or.inr h3)
          · rintro (h3 | h3 | h3)
            · have := ltl key h3; omega
            · exact absurd h3.symm h1
            · exact h3

theorem inOrder_eq_sort {l : List Int} {s : Finset Int} (hs : l.Sorted (· < ·))
    (he : l.toFinset = s) : l = s.sort (· ≤ ·) := by
  subst he
  exact ((List.toFinset_sort (· ≤ ·) hs.nodup).mpr hs.le_of_lt).symm

/-! ## The claims -/

/-- C1: for every tree satisfying the three invariants (BST order, balance, correct
stored heights) and every key, `insertNode` returns a tree that satisfies them
again; hence the tree after any sequence of `insert` calls on the empty tree
satisfies them (every prefix of a sequence is itself a sequence). -/
theorem insertNode_preserves_invariants :
    (∀ (t : Node) (k : Int), Inv t → ∃ t' ev, insertNode t k = some (t', ev) ∧ Inv t') ∧
    (∀ keys : List Int, ∃ t ev,
      run (keys.map Op.insert) AVLTree.empty = some (t, ev) ∧ Inv t.root) := by
  constructor
  · intro t k h
    obtain ⟨t', ev, e, hi, -⟩ := Inv_insertNode k h
    exact ⟨t', ev, e, hi⟩
  · intro keys
    obtain ⟨t', ev, e, hi, -⟩ := Inv_run (keys.map Op.insert) Inv_empty
    exact ⟨t', ev, e, hi⟩

theorem insertNode_preserves_invariants_witness :
    ∃ t' ev, insertNode (.node 10 2 .null (.node 20 1 .null .null)) 30 = some (t', ev) ∧
      Inv t' :=
  insertNode_preserves_invariants.1 (.node 10 2 .null (.node 20 1 .null .null)) 30
    (by decide)

/-- C2: for every tree satisfying the three invariants and every key, `deleteNode`
returns a tree that satisfies them again; hence after any sequence of insertions
followed by any sequence of deletions on the empty tree the BST property and the
balance property hold. -/
theorem deleteNode_preserves_invariants :
    (∀ (t : Node) (k : Int), Inv t → ∃ t' ev, deleteNode t k = some (t', ev) ∧ Inv t') ∧
    (∀ ins dels : List Int, ∃ t ev,
      run (ins.map Op.insert ++ dels.map Op.remove) AVLTree.empty = some (t, ev) ∧
        BST t.root ∧ Balanced t.root) := by
  constructor
  · intro t k h
    obtain ⟨t', ev, e, hi, -⟩ := Inv_deleteNode k h
    exact ⟨t', ev, e, hi⟩
  · intro ins dels
    obtain ⟨t', ev, e, hi, -⟩ :=
      Inv_run (ins.map Op.insert ++ dels.map Op.remove) Inv_empty
    exact ⟨t', ev, e, hi.1, hi.2.1⟩

theorem deleteNode_preserves_invariants_witness :
    ∃ t' ev, deleteNode (.node 20 3 (.node 10 1 .null .null)
        (.node 40 2 (.node 30 1 .null .null) .null)) 10 = some (t', ev) ∧ Inv t' :=
  deleteNode_preserves_invariants.1 (.node 20 3 (.node 10 1 .null .null)
    (.node 40 2 (.node 30 1 .null .null) .null)) 10 (by decide)

/-- C3: after any sequence of `insert` and `remove` calls on the empty tree the
in-order traversal is strictly ascending and is the sorted list of the set obtained
by replaying the calls on a mathematical set; on a tree satisfying the invariants
`insertNode` adds exactly the key and `deleteNode` removes exactly the key, the
traversal staying strictly ascending (no key lost or duplicated). -/
theorem inOrder_is_sorted_key_set :
    (∀ ops : List Op, ∃ t ev, run ops AVLTree.empty = some (t, ev) ∧
      (inOrder t.root).Sorted (· < ·) ∧
      inOrder t.root = (replay ops ∅).sort (· ≤ ·)) ∧
    (∀ (t : Node) (k : Int), Inv t → ∃ t' ev, insertNode t k = some (t', ev) ∧
      (inOrder t').Sorted (· < ·) ∧
      (inOrder t').toFinset = Insert.insert k (inOrder t).toFinset) ∧
    (∀ (t : Node) (k : Int), Inv t → ∃ t' ev, deleteNode t k = some (t', ev) ∧
      (inOrder t').Sorted (· < ·) ∧
      (inOrder t').toFinset = (inOrder t).toFinset.erase k) := by
  refine ⟨fun ops => ?_, fun t k h => ?_, fun t k h => ?_⟩
  · obtain ⟨t, ev, e, hi, hm⟩ := Inv_run ops Inv_empty
    have hs : (inOrder t.root).Sorted (· < ·) := (BST_iff_pairwise _).mp hi.1
    exact ⟨t, ev, e, hs, inOrder_eq_sort hs hm⟩
  · obtain ⟨t', ev, e, hi, hm⟩ := Inv_insertNode k h
    refine ⟨t', ev, e, (BST_iff_pairwise _).mp hi.1, ?_⟩
    ext x; simp [hm]
  · obtain ⟨t', ev, e, hi, hm⟩ := Inv_deleteNode k h
    refine ⟨t', ev, e, (BST_iff_pairwise _).mp hi.1, ?_⟩
    ext x; simp [hm]; tauto

theorem inOrder_is_sorted_key_set_witness :
    ∃ t' ev, deleteNode (.node 20 2 (.node 10 1 .null .null) (.node 30 1 .null .null)) 20
        = some (t', ev) ∧ (inOrder t').Sorted (· < ·) ∧
      (inOrder t').toFinset =
        (inOrder (.node 20 2 (.node 10 1 .null .null) (.node 30 1 .null .null))).toFinset.erase
          20 :=
  inOrder_is_sorted_key_set.2.2
    (.node 20 2 (.node 10 1 .null .null) (.node 30 1 .null .null)) 20 (by decide)

/-- C4: on a tree with the BST property `search(k)` answers true exactly when `k` is
one of the stored keys, and the state after the call is the state before it; after
the ten insertions of `main`, `search(25)` is true and `search(100)` is false. -/
theorem search_iff_mem :
    (∀ (t : AVLTree) (k : Int), BST t.root →
      ((t.search k).1 = true ↔ k ∈ inOrder t.root) ∧ (t.search k).2 = t) ∧
    (∃ t ev, run (initialValues.map Op.insert) AVLTree.empty = some (t, ev) ∧
      (t.search 25).1 = true ∧ (t.search 100).1 = false) := by
  constructor
  · intro t k hb
    refine ⟨?_, rfl⟩
    simp only [AVLTree.search, decide_eq_true_eq]
    exact searchNode_ne_null_iff k hb
  · exact ⟨⟨.node 30 4
        (.node 20 3 (.node 10 2 (leaf 5) (leaf 15)) (leaf 25))
        (.node 50 3 (leaf 40) (.node 60 2 .null (leaf 70)))⟩,
      [.imbalance .rightRight 10, .leftRotation 10, .imbalance .rightRight 30,
        .leftRotation 30, .imbalance .rightLeft 20, .rightRotation 40, .leftRotation 20,
        .imbalance .rightRight 40, .leftRotation 40],
      by decide, by decide, by decide⟩

theorem search_iff_mem_witness :
    ((AVLTree.search ⟨.node 20 2 (.node 10 1 .null .null) .null⟩ 10).1 = true ↔
        (10 : Int) ∈ inOrder (.node 20 2 (.node 10 1 .null .null) .null)) ∧
      (AVLTree.search ⟨.node 20 2 (.node 10 1 .null .null) .null⟩ 10).2 =
        ⟨.node 20 2 (.node 10 1 .null .null) .null⟩ :=
  search_iff_mem.1 ⟨.node 20 2 (.node 10 1 .null .null) .null⟩ 10 (by decide)

/-- C5: on a tree satisfying the invariants, inserting a key that is already stored
returns the very same tree (shape, keys and stored heights) and writes no imbalance
or rotation event; hence a second `insert` of the same key changes nothing. -/
theorem insert_duplicate_unchanged :
    (∀ (t : Node) (k : Int), Inv t → k ∈ inOrder t → insertNode t k = some (t, [])) ∧
    (∀ (t : AVLTree) (k : Int), Inv t.root → ∃ t1 ev1,
      t.insert k = some (t1, ev1) ∧ t1.insert k = some (t1, [])) := by
  constructor
  · intro t k h hm
    exact insertNode_of_mem h hm
  · intro t k h
    obtain ⟨n, ev, e, hi, hm⟩ := Inv_insertNode k h
    refine ⟨⟨n⟩, ev, by simp [AVLTree.insert, e], ?_⟩
    have := insertNode_of_mem hi ((hm k).mpr (Or.inl rfl))
    simp [AVLTree.insert, this]

theorem insert_duplicate_unchanged_witness :
    insertNode (.node 20 2 (.node 10 1 .null .null) (.node 30 1 .null .null)) 30 =
      some (.node 20 2 (.node 10 1 .null .null) (.node 30 1 .null .null), []) :=
  insert_duplicate_unchanged.1
    (.node 20 2 (.node 10 1 .null .null) (.node 30 1 .null .null)) 30
    (by decide) (by decide)

/-- C6: on a tree satisfying the invariants, deleting a key that is not stored
returns the very same tree (shape, keys and stored heights), writes no imbalance or
rotation event and does not fault; on the empty tree the result is the empty tree. -/
theorem delete_absent_unchanged :
    (∀ (t : Node) (k : Int), Inv t → k ∉ inOrder t → deleteNode t k = some (t, [])) ∧
    (∀ k : Int, deleteNode .null k = some (.null, [])) := by
  constructor
  · intro t k h hm
    exact deleteNode_of_not_mem h.2.1 h.2.2 hm
  · intro k; rfl

theorem delete_absent_unchanged_witness :
    deleteNode (.node 20 2 (.node 10 1 .null .null) (.node 30 1 .null .null)) 25 =
      some (.node 20 2 (.node 10 1 .null .null) (.node 30 1 .null .null), []) :=
  delete_absent_unchanged.1
    (.node 20 2 (.node 10 1 .null .null) (.node 30 1 .null .null)) 25
    (by decide) (by decide)

/-- C7: the ten insertions of `main` followed by the removal of 20 and of 30 leave a
tree whose in-order traversal is 5 10 15 25 40 50 60 70 and in which every node has
a balance factor of absolute value at most 1. -/
theorem demo_final_tree :
    ∃ t ev, run demoOps AVLTree.empty = some (t, ev) ∧
      inOrder t.root = [5, 10, 15, 25, 40, 50, 60, 70] ∧ Balanced t.root :=
  ⟨⟨.node 40 4
      (.node 10 3 (leaf 5) (.node 25 2 (leaf 15) .null))
      (.node 60 2 (leaf 50) (leaf 70))⟩,
    [.imbalance .rightRight 10, .leftRotation 10, .imbalance .rightRight 30,
      .leftRotation 30, .imbalance .rightLeft 20, .rightRotation 40, .leftRotation 20,
      .imbalance .rightRight 40, .leftRotation 40, .imbalance .leftLeft 25,
      .rightRotation 25, .imbalance .rightRight 50, .leftRotation 50],
    by decide, by decide, by decide⟩

/-- C8: for `a < b < c`, inserting `a`, `b`, `c` in this order into the empty tree
writes exactly one imbalance report and one rotation report, a left rotation at the
node with key `a` in the Right-Right case, and leaves root `b` of stored height 2
with the leaves `a` and `c` of stored height 1 as left and right child. -/
theorem insert_ascending_triple (a b c : Int) (hab : a < b) (hbc : b < c) :
    run [Op.insert a, Op.insert b, Op.insert c] AVLTree.empty =
      some (⟨.node b 2 (.node a 1 .null .null) (.node c 1 .null .null)⟩,
        [Event.imbalance Case.rightRight a, Event.leftRotation a]) := by
  have h1 : ¬ b < a := by omega
  have h2 : ¬ c < a := by omega
  have h3 : a < c := by omega
  have h4 : ¬ c < b := by omega
  simp [run, step, AVLTree.insert, AVLTree.empty, insertNode, insertFixup, h1, h2, h3, h4,
    hab, hbc]

theorem insert_ascending_triple_witness :
    run [Op.insert 10, Op.insert 20, Op.insert 30] AVLTree.empty =
      some (⟨.node 20 2 (.node 10 1 .null .null) (.node 30 1 .null .null)⟩,
        [Event.imbalance Case.rightRight 10, Event.leftRotation 10]) :=
  insert_ascending_triple 10 20 30 (by decide) (by decide)

/-- C9: for `a < b < c`, inserting `c`, `a`, `b` in this order into the empty tree
runs the Left-Right case at `c` (a left rotation at `a`, then a right rotation at
`c`) and leaves root `b` of stored height 2 with the leaves `a` and `c` of stored
height 1, the same tree as inserting `a`, `b`, `c` in order. -/
theorem insert_left_right_triple (a b c : Int) (hab : a < b) (hbc : b < c) :
    run [Op.insert c, Op.insert a, Op.insert b] AVLTree.empty =
      some (⟨.node b 2 (.node a 1 .null .null) (.node c 1 .null .null)⟩,
        [Event.imbalance Case.leftRight c, Event.leftRotation a, Event.rightRotation c]) ∧
    (run [Op.insert c, Op.insert a, Op.insert b] AVLTree.empty).map Prod.fst =
      (run [Op.insert a, Op.insert b, Op.insert c] AVLTree.empty).map Prod.fst := by
  have h1 : ¬ b < a := by omega
  have h2 : ¬ c < a := by omega
  have h3 : a < c := by omega
  have h4 : ¬ c < b := by omega
  have h5 : b < c := hbc
  constructor <;>
  simp [run, step, AVLTree.insert, AVLTree.empty, insertNode, insertFixup, h1, h2, h3, h4,
    hab, hbc]

theorem insert_left_right_triple_witness :
    run [Op.insert 30, Op.insert 10, Op.insert 20] AVLTree.empty =
      some (⟨.node 20 2 (.node 10 1 .null .null) (.node 30 1 .null .null)⟩,
        [Event.imbalance Case.leftRight 30, Event.leftRotation 10,
          Event.rightRotation 30]) ∧
    (run [Op.insert 30, Op.insert 10, Op.insert 20] AVLTree.empty).map Prod.fst =
      (run [Op.insert 10, Op.insert 20, Op.insert 30] AVLTree.empty).map Prod.fst :=
  insert_left_right_triple 10 20 30 (by decide) (by decide)

/-! ## The height bound -/

theorem fib_le_size : ∀ {t : Node}, Balanced t → HeightsOK t →
    Nat.fib (height t + 2) ≤ size t + 1
  | .null, _, _ => by simp [height, size]
  | .node _ _ l r, ⟨bl, br, bb⟩, ⟨hl, hr, _⟩ => by
      have il := fib_le_size bl hl
      have ir := fib_le_size br hr
      rw [getHeight_eq_height hl, getHeight_eq_height hr] at bb
      have bb' := abs_le.mp bb
      simp only [height, size]
      rcases le_total (height l) (height r) with hle | hle
      · rw [max_eq_right hle]
        have hm : Nat.fib (height r + 1) ≤ Nat.fib (height l + 2) := Nat.fib_mono (by omega)
        have e : Nat.fib (height r + 1 + 2) = Nat.fib (height r + 1) + Nat.fib (height r + 2) :=
          Nat.fib_add_two
        omega
      · rw [max_eq_left hle]
        have hm : Nat.fib (height l + 1) ≤ Nat.fib (height r + 2) := Nat.fib_mono (by omega)
        have e : Nat.fib (height l + 1 + 2) = Nat.fib (height l + 1) + Nat.fib (height l + 2) :=
          Nat.fib_add_two
        omega

theorem gold_ge : (809 / 500 : ℝ) ≤ goldenRatio := by
  have h5 : (2236 / 1000 : ℝ) ≤ √5 := by
    apply Real.le_sqrt_of_sq_le
    norm_num
  unfold goldenRatio
  linarith

theorem gold_pow_lt (m : ℕ) : goldenRatio ^ m < √5 * ((Nat.fib m : ℝ) + 1) := by
  have hs : (0 : ℝ) < √5 := Real.sqrt_pos.mpr (by norm_num)
  have hs1 : (1 : ℝ) < √5 := by
    rw [show (1 : ℝ) = √1 by simp]
    exact Real.sqrt_lt_sqrt (by norm_num) (by norm_num)
  have hfib := Real.coe_fib_eq m
  have hpsi : goldenConj ^ m ≤ 1 := by
    have habs : |goldenConj| ≤ 1 := by
      rw [abs_le]
      exact ⟨le_of_lt neg_one_lt_goldConj, le_of_lt (lt_trans goldConj_neg one_pos)⟩
    calc goldenConj ^ m ≤ |goldenConj ^ m| := le_abs_self _
      _ = |goldenConj| ^ m := abs_pow _ _
      _ ≤ 1 := pow_le_one₀ (abs_nonneg _) habs
  have : goldenRatio ^ m = √5 * (Nat.fib m : ℝ) + goldenConj ^ m := by
    rw [hfib, mul_div_cancel₀ _ (ne_of_gt hs)]; ring
  rw [this]
  linarith

theorem logb_two_ge_of_pow {x : ℝ} (p q : ℕ) (hq : 0 < q)
    (h : (2 : ℝ) ^ p ≤ x ^ q) : (p : ℝ) / q ≤ Real.logb 2 x := by
  have h1 : Real.logb 2 ((2 : ℝ) ^ p) ≤ Real.logb 2 (x ^ q) :=
    Real.logb_le_logb_of_le (by norm_num) (by positivity) h
  rw [Real.logb_pow, Real.logb_pow, Real.logb_self_eq_one (by norm_num)] at h1
  rw [div_le_iff₀ (by exact_mod_cast hq)]
  linarith

theorem logb_fact1 : (2000 / 2881 : ℝ) ≤ Real.logb 2 (809 / 500) := by
  have := @logb_two_ge_of_pow (809 / 500) 2000 2881 (by norm_num) (by norm_num)
  simpa using this

theorem logb_fact2 : (6554 / 14405 : ℝ) ≤ Real.logb 2 (3427 / 2500) := by
  have := @logb_two_ge_of_pow (3427 / 2500) 6554 14405 (by norm_num) (by norm_num)
  simpa using this

/-- Real-number core of the height bound: a tree of height `h` whose number of keys
`n` satisfies `fib (h + 2) ≤ n + 1` has `h ≤ 1.4405 * log₂ (n + 2) - 0.3277`. -/
theorem height_le_of_fib_le (h n : ℕ) (hf : Nat.fib (h + 2) ≤ n + 1) :
    (h : ℝ) ≤ 1.4405 * Real.logb 2 ((n : ℝ) + 2) - 0.3277 := by
  have hs : (0 : ℝ) < √5 := Real.sqrt_pos.mpr (by norm_num)
  have hN : (0 : ℝ) < (n : ℝ) + 2 := by positivity
  have hfR : (Nat.fib (h + 2) : ℝ) + 1 ≤ (n : ℝ) + 2 := by
    have : (Nat.fib (h + 2) : ℝ) ≤ (n : ℝ) + 1 := by exact_mod_cast hf
    linarith
  have h1 : goldenRatio ^ (h + 2) < √5 * ((n : ℝ) + 2) :=
    lt_of_lt_of_le (gold_pow_lt (h + 2)) (mul_le_mul_of_nonneg_left hfR hs.le)
  have hg0 : (0 : ℝ) ≤ 809 / 500 := by norm_num
  -- square both sides to remove the square root
  have h3 : (goldenRatio ^ (h + 2)) ^ 2 < (√5 * ((n : ℝ) + 2)) ^ 2 :=
    pow_lt_pow_left₀ h1 (pow_nonneg gold_pos.le _) (by norm_num)
  have h4 : (√5 * ((n : ℝ) + 2)) ^ 2 = 5 * ((n : ℝ) + 2) ^ 2 := by
    rw [mul_pow, Real.sq_sqrt (by norm_num)]
  have hg4 : goldenRatio ^ 4 = 3 * goldenRatio + 2 := by
    have e : goldenRatio ^ 4 = (goldenRatio ^ 2) ^ 2 := by ring
    rw [e, gold_sq]
    have := gold_sq
    nlinarith
  have h5 : (goldenRatio ^ (h + 2)) ^ 2 = goldenRatio ^ (2 * h) * goldenRatio ^ 4 := by
    rw [← pow_mul, show (h + 2) * 2 = 2 * h + 4 by ring, pow_add]
  have h5a : (809 / 500 : ℝ) ^ (2 * h) ≤ goldenRatio ^ (2 * h) :=
    pow_le_pow_left₀ hg0 gold_ge _
  have h5b : (5 : ℝ) * (3427 / 2500) ≤ goldenRatio ^ 4 := by
    rw [hg4]; have := gold_ge; linarith
  have h5c : (809 / 500 : ℝ) ^ (2 * h) * (5 * (3427 / 2500)) ≤
      goldenRatio ^ (2 * h) * goldenRatio ^ 4 :=
    mul_le_mul h5a h5b (by norm_num) (pow_nonneg gold_pos.le _)
  rw [h4, h5] at h3
  have h6 : (809 / 500 : ℝ) ^ (2 * h) * (3427 / 2500) < ((n : ℝ) + 2) ^ 2 := by linarith
  have h7 : Real.logb 2 ((809 / 500 : ℝ) ^ (2 * h) * (3427 / 2500)) <
      Real.logb 2 (((n : ℝ) + 2) ^ 2) :=
    Real.logb_lt_logb (by norm_num) (by positivity) h6
  rw [Real.logb_mul (by positivity) (by norm_num), Real.logb_pow, Real.logb_pow] at h7
  have f1 := logb_fact1
  have f2 := logb_fact2
  have hh : (0 : ℝ) ≤ (h : ℝ) := by positivity
  have f1' : (h : ℝ) * (2000 / 2881) ≤ (h : ℝ) * Real.logb 2 (809 / 500) :=
    mul_le_mul_of_nonneg_left f1 hh
  push_cast at h7
  nlinarith


theorem logb_two_lt_of_pow {x : ℝ} (hx : 0 < x) (p q : ℕ) (hq : 0 < q)
    (h : x ^ q < (2 : ℝ) ^ p) : Real.logb 2 x < (p : ℝ) / q := by
  have h1 : Real.logb 2 (x ^ q) < Real.logb 2 ((2 : ℝ) ^ p) :=
    Real.logb_lt_logb (by norm_num) (by positivity) h
  rw [Real.logb_pow, Real.logb_pow, Real.logb_self_eq_one (by norm_num)] at h1
  rw [lt_div_iff₀ (by exact_mod_cast hq)]
  linarith

theorem rounded_bound_at_609 :
    ¬ ((13 : ℝ) ≤ 1.44 * Real.logb 2 ((609 : ℝ) + 2) - 0.328) := by
  have h := @logb_two_lt_of_pow 611 (by norm_num) 833 90 (by norm_num) (by norm_num)
  have e : ((609 : ℝ) + 2) = 611 := by norm_num
  rw [e]
  push_cast at h
  intro hc
  linarith

/-- C10 (as stated, refuted): inserting the 609 keys of `worstCaseKeys` into the empty
tree gives a tree with 609 keys and root height 13, while
`1.44 * log₂ (609 + 2) - 0.328 < 13`; so the bound with the constants 1.44 and 0.328
does not hold for every reachable tree. -/
theorem height_bound_rounded_fails :
    (run (worstCaseKeys.map Op.insert) AVLTree.empty).map
        (fun p => (size p.1.root, getHeight p.1.root)) = some (609, 13) ∧
    ¬ ((13 : ℝ) ≤ 1.44 * Real.logb 2 ((609 : ℝ) + 2) - 0.328) ∧
    ¬ (∀ (ops : List Op) (t : AVLTree) (ev : List Event),
        run ops AVLTree.empty = some (t, ev) → 1 ≤ size t.root →
        (getHeight t.root : ℝ) ≤ 1.44 * Real.logb 2 ((size t.root : ℝ) + 2) - 0.328) := by
  have hrun : (run (worstCaseKeys.map Op.insert) AVLTree.empty).map
      (fun p => (size p.1.root, getHeight p.1.root)) = some (609, 13) := by
    decide!
  refine ⟨hrun, rounded_bound_at_609, fun hall => ?_⟩
  obtain ⟨⟨t, ev⟩, hr, he⟩ := Option.map_eq_some'.mp hrun
  simp only [Prod.mk.injEq] at he
  have hb := hall _ t ev hr (by omega)
  rw [he.1, he.2] at hb
  exact rounded_bound_at_609 (by exact_mod_cast hb)

/-- C10 (amended): for every tree reached from the empty tree by `insert` and
`remove` calls that holds `n ≥ 1` keys, the stored height `h` of the root satisfies
`h ≤ 1.4405 * log₂ (n + 2) - 0.3277` in real arithmetic. -/
theorem height_le_log_bound (ops : List Op) (t : AVLTree) (ev : List Event)
    (hr : run ops AVLTree.empty = some (t, ev)) (_hn : 1 ≤ size t.root) :
    (getHeight t.root : ℝ) ≤
      1.4405 * Real.logb 2 ((size t.root : ℝ) + 2) - 0.3277 := by
  obtain ⟨t', ev', e, hi, -⟩ := Inv_run ops Inv_empty
  rw [hr] at e
  simp only [Option.some.injEq, Prod.mk.injEq] at e
  obtain ⟨rfl, -⟩ := e
  have hf := fib_le_size hi.2.1 hi.2.2
  have hh : getHeight t.root = (height t.root : Int) := getHeight_eq_height hi.2.2
  rw [hh]
  exact_mod_cast height_le_of_fib_le (height t.root) (size t.root) hf

theorem height_le_log_bound_witness :
    (getHeight (Node.node 20 2 (leaf 10) (leaf 30)) : ℝ) ≤
      1.4405 * Real.logb 2 ((size (Node.node 20 2 (leaf 10) (leaf 30)) : ℝ) + 2) - 0.3277 :=
  height_le_log_bound [Op.insert 10, Op.insert 20, Op.insert 30]
    ⟨Node.node 20 2 (leaf 10) (leaf 30)⟩
    [Event.imbalance Case.rightRight 10, Event.leftRotation 10] (by decide) (by decide)

/-! ## Safety, rotations, traces and traversal -/

@[simp] theorem getHeight_mirror (t : Node) : getHeight (mirror t) = getHeight t := by
  cases t <;> rfl

/-- C12: on a tree satisfying the invariants neither `insertNode` nor `deleteNode`
reaches a fault, and no run of `insert` and `remove` calls from the empty tree does.
In this embedding a rotation faults exactly when its node or the required child is
missing, `minValueNode` exactly on a missing node, and every fault of a rotation, of
a key read or of `minValueNode` is passed on to the result of the operation. -/
theorem operations_never_fault :
    (∀ (t : Node) (k : Int), Inv t →
      (insertNode t k).isSome = true ∧ (deleteNode t k).isSome = true) ∧
    (∀ ops : List Op, (run ops AVLTree.empty).isSome = true) ∧
    (∀ t : Node, rightRotate t = none ↔ (t = .null ∨ ∃ k h r, t = .node k h .null r)) ∧
    (∀ t : Node, leftRotate t = none ↔ (t = .null ∨ ∃ k h l, t = .node k h l .null)) ∧
    (∀ t : Node, minValueNode t = none ↔ t = .null) := by
  refine ⟨fun t k h => ?_, fun ops => ?_, fun t => ?_, fun t => ?_, fun t => ?_⟩
  · obtain ⟨t1, ev1, e1, -⟩ := Inv_insertNode k h
    obtain ⟨t2, ev2, e2, -⟩ := Inv_deleteNode k h
    rw [e1, e2]; exact ⟨rfl, rfl⟩
  · obtain ⟨t', ev, e, -⟩ := Inv_run ops Inv_empty
    rw [e]; rfl
  · cases t with
    | null => simp [rightRotate]
    | node k h l r => cases l <;> simp [rightRotate]
  · cases t with
    | null => simp [leftRotate]
    | node k h l r => cases r <;> simp [leftRotate]
  · induction t with
    | null => simp [minValueNode]
    | node k h l r ihl _ =>
        cases l with
        | null => simp [minValueNode]
        | node lk lh ll lr => simpa [minValueNode] using ihl

theorem operations_never_fault_witness :
    (insertNode (.node 10 2 .null (leaf 20)) 30).isSome = true ∧
      (deleteNode (.node 10 2 .null (leaf 20)) 30).isSome = true :=
  operations_never_fault.1 (.node 10 2 .null (leaf 20)) 30 (by decide)

/-- C13: `rightRotate` on a node `y` whose left child `x` is present, with `A`, `B`
the subtrees of `x` and `C` the right subtree of `y`, returns root `x.key` with left
subtree `A` and right child `y.key` over `B` and `C`; the height of `y` is recomputed
first from `B` and `C`, then that of `x` from `A` and the new `y`; the in-order key
sequence is unchanged, so the BST property is kept; and if the stored heights of `A`,
`B`, `C` are correct the stored heights of the new `y` and `x` are correct. -/
theorem rightRotate_spec (yk yh xk xh : Int) (A B C : Node) :
    ∃ hy hx : Int,
      hy = max (getHeight B) (getHeight C) + 1 ∧ hx = max (getHeight A) hy + 1 ∧
      rightRotate (.node yk yh (.node xk xh A B) C) =
        some (.node xk hx A (.node yk hy B C), [Event.rightRotation yk]) ∧
      inOrder (.node xk hx A (.node yk hy B C)) = inOrder (.node yk yh (.node xk xh A B) C) ∧
      (BST (.node yk yh (.node xk xh A B) C) → BST (.node xk hx A (.node yk hy B C))) ∧
      (getHeight A = height A → getHeight B = height B → getHeight C = height C →
        hy = height (.node yk hy B C) ∧ hx = height (.node xk hx A (.node yk hy B C))) ∧
      (HeightsOK A → HeightsOK B → HeightsOK C →
        HeightsOK (.node xk hx A (.node yk hy B C))) := by
  refine ⟨_, _, rfl, rfl, rfl, by simp, ?_, ?_, ?_⟩
  · intro hb
    rw [BST_iff_pairwise] at hb ⊢
    simpa using hb
  · intro ea eb ec
    simp only [height, getHeight_node, ea, eb, ec]
    constructor <;> push_cast <;> omega
  · intro ha hb hc
    exact ⟨ha, ⟨hb, hc, by omega⟩, by simp only [getHeight_node]; omega⟩

theorem rightRotate_spec_witness :
    ∃ hy hx : Int,
      hy = max (getHeight .null) (getHeight .null) + 1 ∧
      hx = max (getHeight (leaf 10)) hy + 1 ∧
      rightRotate (.node 30 3 (.node 20 2 (leaf 10) .null) .null) =
        some (.node 20 hx (leaf 10) (.node 30 hy .null .null), [Event.rightRotation 30]) ∧
      inOrder (.node 20 hx (leaf 10) (.node 30 hy .null .null)) =
        inOrder (.node 30 3 (.node 20 2 (leaf 10) .null) .null) ∧
      (BST (.node 30 3 (.node 20 2 (leaf 10) .null) .null) →
        BST (.node 20 hx (leaf 10) (.node 30 hy .null .null))) ∧
      (getHeight (leaf 10) = height (leaf 10) → getHeight .null = height .null →
        getHeight .null = height .null →
        hy = height (.node 30 hy .null .null) ∧
          hx = height (.node 20 hx (leaf 10) (.node 30 hy .null .null))) ∧
      (HeightsOK (leaf 10) → HeightsOK .null → HeightsOK .null →
        HeightsOK (.node 20 hx (leaf 10) (.node 30 hy .null .null))) :=
  rightRotate_spec 30 3 20 2 (leaf 10) .null .null

/-- C14: `leftRotate` is the mirror image of `rightRotate`: for every node `x` the
mirrored result of `leftRotate x` is the result of `rightRotate` on the mirrored `x`,
stored heights of the two recomputed nodes included, and both fault together; when
the right child of `x` is present both return a tree, `leftRotate` reporting a left
rotation at `x` and `rightRotate` a right rotation at `x`. -/
theorem leftRotate_mirror :
    (∀ x : Node, (leftRotate x).map (fun p => mirror p.1) =
      (rightRotate (mirror x)).map Prod.fst) ∧
    (∀ (xk xh yk yh : Int) (a t2 c : Node), ∃ res : Node,
      leftRotate (.node xk xh a (.node yk yh t2 c)) = some (res, [Event.leftRotation xk]) ∧
      rightRotate (mirror (.node xk xh a (.node yk yh t2 c))) =
        some (mirror res, [Event.rightRotation xk])) := by
  constructor
  · intro x
    cases x with
    | null => rfl
    | node xk xh a r =>
        cases r with
        | null => rfl
        | node yk yh t2 c =>
            simp [mirror, max_comm]
  · intro xk xh yk yh a t2 c
    refine ⟨_, rfl, ?_⟩
    simp [mirror, max_comm]

/-- C18: on a non-empty subtree `minValueNode` returns the node reached by following
left pointers, which has no left child and whose key is the first key of the in-order
traversal, the least key when the subtree is a BST; hence when `deleteNode` finds its
key at a node with two children in a BST, the key it copies into that node is the
least key of the right subtree, the smallest key of the node's subtree that is
greater than the deleted key, and the deletion continues in the right subtree with
that key. -/
theorem minValueNode_spec :
    (∀ (k h : Int) (l r : Node), ∃ (m mh : Int) (mr : Node) (rest : List Int),
      minValueNode (.node k h l r) = some (.node m mh .null mr) ∧
      inOrder (.node k h l r) = m :: (inOrder mr ++ rest) ∧
      (inOrder (.node k h l r)).head? = some m ∧
      (BST (.node k h l r) → ∀ x ∈ inOrder (.node k h l r), m ≤ x)) ∧
    (∀ (k h lk lh rk rh : Int) (ll lr rl rr : Node),
      BST (.node k h (.node lk lh ll lr) (.node rk rh rl rr)) →
      ∃ m : Int, (minValueNode (.node rk rh rl rr)).bind keyOf = some m ∧
        m ∈ inOrder (.node rk rh rl rr) ∧
        (∀ x ∈ inOrder (.node rk rh rl rr), m ≤ x) ∧ k < m ∧
        (∀ x ∈ inOrder (.node k h (.node lk lh ll lr) (.node rk rh rl rr)), k < x → m ≤ x) ∧
        deleteNode (.node k h (.node lk lh ll lr) (.node rk rh rl rr)) k =
          (deleteNode (.node rk rh rl rr) m).bind
            (fun p => withLog p.2 (deleteFixup m h (.node lk lh ll lr) p.1))) := by
  constructor
  · intro k h l r
    induction l generalizing k h r with
    | null =>
        refine ⟨k, h, r, [], rfl, by simp, by simp, ?_⟩
        rintro ⟨-, -, -, hr⟩ x hx
        simp only [inOrder_node, inOrder_null, List.nil_append, List.mem_cons] at hx
        rcases hx with rfl | hx
        · exact le_refl _
        · exact le_of_lt (hr x hx)
    | node lk lh ll lr ihl _ =>
        obtain ⟨m, mh, mr, rest, e, hio, hhd, hmin⟩ := ihl lk lh lr
        refine ⟨m, mh, mr, rest ++ k :: inOrder r, by simpa [minValueNode] using e, ?_, ?_, ?_⟩
        · rw [inOrder_node, hio]; simp
        · rw [inOrder_node, hio]; simp
        · rintro ⟨bl, -, hl, hr⟩ x hx
          have hm : m ∈ inOrder (.node lk lh ll lr) := by rw [hio]; simp
          have hmk : m < k := hl m hm
          rw [inOrder_node, List.mem_append, List.mem_cons] at hx
          rcases hx with hx | rfl | hx
          · exact hmin bl x hx
          · exact le_of_lt hmk
          · exact le_of_lt (lt_trans hmk (hr x hx))
  · intro k h lk lh rk rh ll lr rl rr hb
    obtain ⟨bl, br, ltl, ltr⟩ := hb
    obtain ⟨m, em, hm, hmin⟩ := minValueNode_key rk rh rl rr
    have hkm : k < m := ltr m hm
    refine ⟨m, em, hm, hmin br, hkm, ?_, ?_⟩
    · intro x hx hkx
      rw [inOrder_node, List.mem_append, List.mem_cons] at hx
      rcases hx with hx | rfl | hx
      · have := ltl x hx; omega
      · omega
      · exact hmin br x hx
    · simp only [deleteNode, lt_self_iff_false, gt_iff_lt, if_false, em]
      cases deleteNode (.node rk rh rl rr) m with
      | none => rfl
      | some p => rfl

theorem minValueNode_spec_witness :
    ∃ m : Int, (minValueNode (.node 30 2 (leaf 25) .null)).bind keyOf = some m ∧
        m ∈ inOrder (.node 30 2 (leaf 25) .null) ∧
        (∀ x ∈ inOrder (.node 30 2 (leaf 25) .null), m ≤ x) ∧ 20 < m ∧
        (∀ x ∈ inOrder (.node 20 3 (.node 10 1 .null .null) (.node 30 2 (leaf 25) .null)),
          20 < x → m ≤ x) ∧
        deleteNode (.node 20 3 (.node 10 1 .null .null) (.node 30 2 (leaf 25) .null)) 20 =
          (deleteNode (.node 30 2 (leaf 25) .null) m).bind
            (fun p => withLog p.2 (deleteFixup m 3 (.node 10 1 .null .null) p.1)) :=
  minValueNode_spec.2 20 3 10 1 30 2 .null .null (leaf 25) .null (by decide)

/-- C20: on a tree satisfying the invariants with stored height `h`, the height of
the tree returned by `deleteNode` is `h` or `h - 1`, and it is `h` when the key is
not stored. -/
theorem deleteNode_height (t : Node) (k : Int) (hi : Inv t) :
    ∃ t' ev, deleteNode t k = some (t', ev) ∧
      (getHeight t' = getHeight t ∨ getHeight t' = getHeight t - 1) ∧
      (k ∉ inOrder t → getHeight t' = getHeight t) := by
  obtain ⟨t', ev, e, -, -, hh⟩ := deleteNode_shape k hi.2.2 hi.2.1
  refine ⟨t', ev, e, hh, fun hk => ?_⟩
  have e2 := deleteNode_of_not_mem hi.2.1 hi.2.2 hk
  rw [e2] at e
  simp only [Option.some.injEq, Prod.mk.injEq] at e
  rw [← e.1]

theorem deleteNode_height_witness :
    ∃ t' ev, deleteNode (.node 20 2 (leaf 10) .null) 10 = some (t', ev) ∧
      (getHeight t' = getHeight (.node 20 2 (leaf 10) .null) ∨
        getHeight t' = getHeight (.node 20 2 (leaf 10) .null) - 1) ∧
      ((10 : Int) ∉ inOrder (.node 20 2 (leaf 10) .null) →
        getHeight t' = getHeight (.node 20 2 (leaf 10) .null)) :=
  deleteNode_height (.node 20 2 (leaf 10) .null) 10 (by decide)

theorem rightRotate_events {t t' : Node} {ev : List Event}
    (h : rightRotate t = some (t', ev)) : ∃ k, keyOf t = some k ∧ ev = [Event.rightRotation k] := by
  unfold rightRotate at h
  split at h
  · simp only [Option.some.injEq, Prod.mk.injEq] at h
    exact ⟨_, rfl, h.2.symm⟩
  · exact absurd h (by simp)

theorem leftRotate_events {t t' : Node} {ev : List Event}
    (h : leftRotate t = some (t', ev)) : ∃ k, keyOf t = some k ∧ ev = [Event.leftRotation k] := by
  unfold leftRotate at h
  split at h
  · simp only [Option.some.injEq, Prod.mk.injEq] at h
    exact ⟨_, rfl, h.2.symm⟩
  · exact absurd h (by simp)

theorem insertFixup_events {k h : Int} {l r : Node} {key : Int} {n : Node}
    {ev : List Event} (hf : insertFixup k h l r key = some (n, ev)) :
    ev = [] ∨ isCaseLog k ev = true := by
  unfold insertFixup at hf
  simp only at hf
  split at hf
  · simp at hf
  · obtain ⟨ev', h1, rfl⟩ := withLog_eq_some hf
    obtain ⟨k', hk, rfl⟩ := rightRotate_events h1
    simp only [updateHeight_node, keyOf, Option.some.injEq] at hk
    subst hk
    right; simp [isCaseLog]
  · split at hf
    · simp at hf
    · obtain ⟨ev', h1, rfl⟩ := withLog_eq_some hf
      obtain ⟨k', hk, rfl⟩ := leftRotate_events h1
      simp only [updateHeight_node, keyOf, Option.some.injEq] at hk
      subst hk
      right; simp [isCaseLog]
    · split at hf
      · simp at hf
      · split at hf
        · simp at hf
        · rename_i l' ev1 hl
          obtain ⟨ev', h1, rfl⟩ := withLog_eq_some hf
          obtain ⟨m, -, rfl⟩ := leftRotate_events hl
          obtain ⟨k', hk, rfl⟩ := rightRotate_events h1
          simp only [keyOf, Option.some.injEq] at hk
          subst hk
          right; simp [isCaseLog]
      · split at hf
        · simp at hf
        · split at hf
          · simp at hf
          · rename_i r' ev1 hr
            obtain ⟨ev', h1, rfl⟩ := withLog_eq_some hf
            obtain ⟨m, -, rfl⟩ := rightRotate_events hr
            obtain ⟨k', hk, rfl⟩ := leftRotate_events h1
            simp only [keyOf, Option.some.injEq] at hk
            subst hk
            right; simp [isCaseLog]
        · simp only [Option.some.injEq, Prod.mk.injEq] at hf
          left; exact hf.2.symm

theorem insertBalances_of_lt {k h : Int} {l r : Node} {key : Int} {l' : Node}
    {ev : List Event} (hk : key < k) (e : insertNode l key = some (l', ev)) :
    insertBalances (.node k h l r) key =
      insertBalances l key ++ [(k, getHeight l' - getHeight r)] := by
  simp [insertBalances, hk, e]

theorem insertBalances_of_gt {k h : Int} {l r : Node} {key : Int} {r' : Node}
    {ev : List Event} (hk : k < key) (e : insertNode r key = some (r', ev)) :
    insertBalances (.node k h l r) key =
      insertBalances r key ++ [(k, getHeight l - getHeight r')] := by
  have hk' : ¬ key < k := by omega
  simp [insertBalances, hk, hk', e]

theorem insertNode_trace (key : Int) : ∀ {t : Node}, HeightsOK t → Balanced t →
    ∃ t' ev, insertNode t key = some (t', ev) ∧ OneCase t t' key ev
  | .null, _, _ => ⟨.node key 1 .null .null, [], rfl, Or.inl ⟨by simp [insertBalances], rfl⟩⟩
  | .node k h l r, ho, hb => by
      obtain ⟨hl, hr, eh⟩ := ho
      obtain ⟨bl, br, bb⟩ := hb
      have bb' := abs_le.mp bb
      by_cases hk : key < k
      · obtain ⟨l', ev, e, hl', bl', hg⟩ := insertNode_shape key hl bl
        obtain ⟨l2, ev2, e2, htr⟩ := insertNode_trace key hl bl
        rw [e] at e2
        simp only [Option.some.injEq, Prod.mk.injEq] at e2
        obtain ⟨rfl, rfl⟩ := e2
        have hc : |getHeight l' - getHeight r| ≤ 1 ∨
            (getHeight l' = getHeight r + 2 ∧ Grown key l') ∨
            (getHeight r = getHeight l' + 2 ∧ Grown key r) := by
          rcases hg with hg | ⟨hg, gr⟩
          · left; rw [abs_le]; omega
          · by_cases h2 : getHeight l' = getHeight r + 2
            · exact Or.inr (Or.inl ⟨h2, gr⟩)
            · left; rw [abs_le]; omega
        obtain ⟨n, ev3, ef, -, -, hcase⟩ := @insertFixup_shape k h l' r key hl' bl' hr br hc
        refine ⟨n, ev ++ ev3, by simp [insertNode, hk, e, ef], ?_⟩
        rw [OneCase, insertBalances_of_lt hk e]
        rcases htr with ⟨hall, rfl⟩ | ⟨hsame, pre, m, b, post, hbs, hpre, hpost, hb1, hlog⟩
        · rcases hcase with ⟨ha, rfl, rfl⟩ | ⟨ha, hh, hne⟩
          · left
            refine ⟨?_, rfl⟩
            intro p hp
            rw [List.mem_append, List.mem_singleton] at hp
            rcases hp with hp | rfl
            · exact hall p hp
            · exact ha
          · right
            have ha' := lt_abs.mp ha
            refine ⟨by simp only [getHeight_node]; omega, insertBalances l key, k,
              getHeight l' - getHeight r, [], rfl, hall, by simp, ha, ?_⟩
            rcases insertFixup_events ef with h0 | h0
            · exact absurd h0 hne
            · simpa using h0
        · have hbal : |getHeight l' - getHeight r| ≤ 1 := by rw [hsame]; exact bb
          rcases hcase with ⟨ha, rfl, rfl⟩ | ⟨ha, -, -⟩
          · right
            refine ⟨by simp only [getHeight_node]; omega, pre, m, b,
              post ++ [(k, getHeight l' - getHeight r)], by rw [hbs]; simp, hpre, ?_, hb1,
              by simpa using hlog⟩
            intro p hp
            rw [List.mem_append, List.mem_singleton] at hp
            rcases hp with hp | rfl
            · exact hpost p hp
            · exact hbal
          · exact absurd hbal (not_le.mpr ha)
      · by_cases hk2 : key > k
        · obtain ⟨r', ev, e, hr', br', hg⟩ := insertNode_shape key hr br
          obtain ⟨r2, ev2, e2, htr⟩ := insertNode_trace key hr br
          rw [e] at e2
          simp only [Option.some.injEq, Prod.mk.injEq] at e2
          obtain ⟨rfl, rfl⟩ := e2
          have hc : |getHeight l - getHeight r'| ≤ 1 ∨
              (getHeight l = getHeight r' + 2 ∧ Grown key l) ∨
              (getHeight r' = getHeight l + 2 ∧ Grown key r') := by
            rcases hg with hg | ⟨hg, gr⟩
            · left; rw [abs_le]; omega
            · by_cases h2 : getHeight r' = getHeight l + 2
              · exact Or.inr (Or.inr ⟨h2, gr⟩)
              · left; rw [abs_le]; omega
          obtain ⟨n, ev3, ef, -, -, hcase⟩ := @insertFixup_shape k h l r' key hl bl hr' br' hc
          refine ⟨n, ev ++ ev3, by simp [insertNode, hk, hk2, e, ef], ?_⟩
          rw [OneCase, insertBalances_of_gt hk2 e]
          rcases htr with ⟨hall, rfl⟩ | ⟨hsame, pre, m, b, post, hbs, hpre, hpost, hb1, hlog⟩
          · rcases hcase with ⟨ha, rfl, rfl⟩ | ⟨ha, hh, hne⟩
            · left
              refine ⟨?_, rfl⟩
              intro p hp
              rw [List.mem_append, List.mem_singleton] at hp
              rcases hp with hp | rfl
              · exact hall p hp
              · exact ha
            · right
              have ha' := lt_abs.mp ha
              refine ⟨by simp only [getHeight_node]; omega, insertBalances r key, k,
                getHeight l - getHeight r', [], rfl, hall, by simp, ha, ?_⟩
              rcases insertFixup_events ef with h0 | h0
              · exact absurd h0 hne
              · simpa using h0
          · have hbal : |getHeight l - getHeight r'| ≤ 1 := by rw [hsame]; exact bb
            rcases hcase with ⟨ha, rfl, rfl⟩ | ⟨ha, -, -⟩
            · right
              refine ⟨by simp only [getHeight_node]; omega, pre, m, b,
                post ++ [(k, getHeight l - getHeight r')], by rw [hbs]; simp, hpre, ?_, hb1,
                by simpa using hlog⟩
              intro p hp
              rw [List.mem_append, List.mem_singleton] at hp
              rcases hp with hp | rfl
              · exact hpost p hp
              · exact hbal
            · exact absurd hbal (not_le.mpr ha)
        · refine ⟨.node k h l r, [], by simp [insertNode, hk, hk2], Or.inl ⟨?_, rfl⟩⟩
          simp [insertBalances, hk, hk2]

theorem pushIf_eq (q : List Node) (n : Node) : pushIf q n = q ++ present n := by
  cases n <;> simp [pushIf, present]

theorem present_ne_null {n x : Node} (h : x ∈ present n) : x ≠ .null := by
  cases n with
  | null => simp [present] at h
  | node k hh l r =>
      simp only [present, List.mem_singleton] at h
      rw [h]; exact fun e => Node.noConfusion e

theorem sizeF_append (p q : List Node) : sizeF (p ++ q) = sizeF p + sizeF q := by
  induction p with
  | nil => simp [sizeF]
  | cons t p ih =>
      show size t + sizeF (p ++ q) = size t + sizeF p + sizeF q
      rw [ih]; omega

theorem sizeF_present (n : Node) : sizeF (present n) = size n := by
  cases n <;> simp [present, sizeF, size]

theorem childrenOf_ne_null : ∀ (q : List Node) {x : Node}, x ∈ childrenOf q → x ≠ .null
  | [], x, h => by simp [childrenOf] at h
  | .null :: q, x, h => childrenOf_ne_null q (by simpa [childrenOf] using h)
  | .node _ _ l r :: q, x, h => by
      simp only [childrenOf, List.mem_append] at h
      rcases h with h | h | h
      · exact present_ne_null h
      · exact present_ne_null h
      · exact childrenOf_ne_null q h

theorem sizeF_childrenOf : ∀ (q : List Node), (∀ x ∈ q, x ≠ Node.null) →
    sizeF (childrenOf q) + q.length = sizeF q
  | [], _ => rfl
  | .null :: q, h => absurd rfl (h .null (by simp))
  | .node _ _ l r :: q, h => by
      have ih := sizeF_childrenOf q (fun x hx => h x (List.mem_cons_of_mem _ hx))
      simp only [childrenOf, sizeF_append, sizeF_present, sizeF, size, List.length_cons]
      omega

theorem height_childrenOf : ∀ (q : List Node) (n : Nat), (∀ x ∈ q, height x ≤ n + 1) →
    ∀ x ∈ childrenOf q, height x ≤ n
  | [], _, _, x, hx => by simp [childrenOf] at hx
  | .null :: q, n, h, x, hx =>
      height_childrenOf q n (fun y hy => h y (List.mem_cons_of_mem _ hy)) x
        (by simpa [childrenOf] using hx)
  | .node k hh l r :: q, n, h, x, hx => by
      have h0 := h (.node k hh l r) (by simp)
      simp only [height] at h0
      simp only [childrenOf, List.mem_append] at hx
      rcases hx with hx | hx | hx
      · cases l with
        | null => simp [present] at hx
        | node _ _ _ _ =>
            simp only [present, List.mem_singleton] at hx
            rw [hx]; omega
      · cases r with
        | null => simp [present] at hx
        | node _ _ _ _ =>
            simp only [present, List.mem_singleton] at hx
            rw [hx]; omega
      · exact height_childrenOf q n (fun y hy => h y (List.mem_cons_of_mem _ hy)) x hx

theorem levelOrderLoop_prefix : ∀ (q p : List Node) (fuel : Nat),
    (∀ x ∈ q, x ≠ Node.null) → q.length ≤ fuel →
    levelOrderLoop fuel (q ++ p) =
      (levelOrderLoop (fuel - q.length) (p ++ childrenOf q)).map (rootsOf q ++ ·)
  | [], p, fuel, _, _ => by simp [childrenOf, rootsOf]
  | .null :: q, _, _, h, _ => absurd rfl (h .null (by simp))
  | .node k hh l r :: q, p, 0, _, hf => by simp at hf
  | .node k hh l r :: q, p, fuel + 1, h, hf => by
      have hq : ∀ x ∈ q, x ≠ Node.null := fun x hx => h x (List.mem_cons_of_mem _ hx)
      have hlen : q.length ≤ fuel := by simpa using hf
      have ih := levelOrderLoop_prefix q (p ++ (present l ++ present r)) fuel hq hlen
      have e1 : pushIf (pushIf (q ++ p) l) r = q ++ (p ++ (present l ++ present r)) := by
        simp [pushIf_eq]
      have e2 : (p ++ (present l ++ present r)) ++ childrenOf q =
          p ++ childrenOf (.node k hh l r :: q) := by
        simp [childrenOf]
      have e3 : fuel + 1 - (Node.node k hh l r :: q).length = fuel - q.length := by
        simp
      show levelOrderLoop (fuel + 1) (.node k hh l r :: (q ++ p)) = _
      rw [levelOrderLoop, e1, ih, e2, e3]
      cases levelOrderLoop (fuel - q.length) (p ++ childrenOf (.node k hh l r :: q)) with
      | none => rfl
      | some out => rfl

theorem levelOrderLoop_eq_bfsF : ∀ (n : Nat) (q : List Node) (fuel : Nat),
    (∀ x ∈ q, x ≠ Node.null) → (∀ x ∈ q, height x ≤ n) → sizeF q ≤ fuel →
    levelOrderLoop fuel q = some (bfsF n q)
  | 0, q, fuel, hnn, hh, _ => by
      cases q with
      | nil => cases fuel <;> rfl
      | cons t q =>
          have h1 := hnn t (by simp)
          have h2 := hh t (by simp)
          cases t with
          | null => exact absurd rfl h1
          | node _ _ _ _ => simp [height] at h2
  | n + 1, q, fuel, hnn, hh, hf => by
      have hs := sizeF_childrenOf q hnn
      have hp := levelOrderLoop_prefix q [] fuel hnn (by omega)
      rw [List.append_nil, List.nil_append] at hp
      rw [hp, levelOrderLoop_eq_bfsF n (childrenOf q) (fuel - q.length)
        (fun x hx => childrenOf_ne_null q hx) (height_childrenOf q n hh) (by omega)]
      rfl

theorem rootsOf_eq_levelF : ∀ q : List Node, rootsOf q = levelF q 0
  | [] => rfl
  | .null :: q => by simp [rootsOf, levelF, levelNodes, rootsOf_eq_levelF q]
  | .node _ _ _ _ :: q => by simp [rootsOf, levelF, levelNodes, rootsOf_eq_levelF q]

theorem levelF_append (p q : List Node) (d : Nat) :
    levelF (p ++ q) d = levelF p d ++ levelF q d := by
  induction p with
  | nil => rfl
  | cons t p ih => simp [levelF, ih]

theorem levelF_present (n : Node) (d : Nat) : levelF (present n) d = levelNodes n d := by
  cases n <;> simp [present, levelF, levelNodes]

theorem levelF_childrenOf : ∀ (q : List Node) (d : Nat),
    levelF (childrenOf q) d = levelF q (d + 1)
  | [], _ => rfl
  | .null :: q, d => by simp [childrenOf, levelF, levelNodes, levelF_childrenOf q d]
  | .node _ _ l r :: q, d => by
      simp [childrenOf, levelF, levelNodes, levelF_append, levelF_present,
        levelF_childrenOf q d]

theorem levelsF_childrenOf (q : List Node) : ∀ (n d : Nat),
    levelsF (childrenOf q) d n = levelsF q (d + 1) n
  | 0, _ => rfl
  | n + 1, d => by simp [levelsF, levelF_childrenOf, levelsF_childrenOf q n (d + 1)]

theorem bfsF_eq_levelsF : ∀ (n : Nat) (q : List Node), bfsF n q = levelsF q 0 n
  | 0, _ => rfl
  | n + 1, q => by
      simp [bfsF, levelsF, rootsOf_eq_levelF, bfsF_eq_levelsF n, levelsF_childrenOf]

theorem levelsF_singleton (t : Node) : ∀ (n d : Nat), levelsF [t] d n = levels t d n
  | 0, _ => rfl
  | n + 1, d => by simp [levelsF, levels, levelF, levelsF_singleton t n (d + 1)]

theorem levelOrder_eq_levels (t : Node) : levelOrder t = some (levels t 0 (height t)) := by
  cases t with
  | null => rfl
  | node k h l r =>
      have := levelOrderLoop_eq_bfsF (height (.node k h l r)) [.node k h l r]
        (size (.node k h l r)) (by simp) (by simp) (by simp [sizeF])
      rw [levelOrder, this, bfsF_eq_levelsF, levelsF_singleton]

theorem levelNodes_of_height_le : ∀ (t : Node) (d : Nat), height t ≤ d → levelNodes t d = []
  | .null, _, _ => rfl
  | .node _ _ l r, 0, h => by simp [height] at h
  | .node _ _ l r, d + 1, h => by
      simp only [height] at h
      simp [levelNodes, levelNodes_of_height_le l d (by omega),
        levelNodes_of_height_le r d (by omega)]

theorem levels_of_height_le (t : Node) : ∀ (n d : Nat), height t ≤ d → levels t d n = []
  | 0, _, _ => rfl
  | n + 1, d, h => by
      simp [levels, levelNodes_of_height_le t d h, levels_of_height_le t n (d + 1) (by omega)]

theorem levels_add (t : Node) : ∀ (n m d : Nat),
    levels t d (n + m) = levels t d n ++ levels t (d + n) m
  | 0, m, d => by simp [levels]
  | n + 1, m, d => by
      have := levels_add t n m (d + 1)
      rw [show n + 1 + m = (n + m) + 1 by omega]
      simp only [levels, this, List.append_assoc]
      rw [show d + 1 + n = d + (n + 1) by omega]

theorem levels_node_perm (k h : Int) (l r : Node) : ∀ (n d : Nat),
    (levels (.node k h l r) (d + 1) n).Perm (levels l d n ++ levels r d n)
  | 0, _ => by simp [levels]
  | n + 1, d => by
      have ih := levels_node_perm k h l r n (d + 1)
      simp only [levels, levelNodes]
      refine (List.Perm.append_left _ ih).trans ?_
      simp only [List.append_assoc]
      refine List.Perm.append_left _ ?_
      rw [← List.append_assoc, ← List.append_assoc]
      exact List.Perm.append_right _ List.perm_append_comm

theorem levels_perm_nodes : ∀ (t : Node) (n : Nat), height t ≤ n →
    (levels t 0 n).Perm (nodes t)
  | .null, n, _ => by
      rw [levels_of_height_le .null n 0 (by simp [height])]; exact List.Perm.refl _
  | .node k h l r, 0, hn => by simp [height] at hn
  | .node k h l r, n + 1, hn => by
      simp only [height] at hn
      have il := levels_perm_nodes l n (by omega)
      have ir := levels_perm_nodes r n (by omega)
      simp only [levels, levelNodes, nodes, List.singleton_append]
      exact List.Perm.cons _ ((levels_node_perm k h l r n 0).trans (List.Perm.append il ir))

/-- C11: for every tree reached from the empty tree by `insert` and `remove` calls,
with `n` keys and stored root height `h` (0 for the empty tree, 1 for a leaf),
`fib (h + 2) ≤ n + 1`, where `fib 1 = fib 2 = 1`; that is, a tree of height `h`
has at least `fib (h + 2) - 1` keys. -/
theorem fib_height_le_keys (ops : List Op) (t : AVLTree) (ev : List Event)
    (hr : run ops AVLTree.empty = some (t, ev)) :
    0 ≤ getHeight t.root ∧ (inOrder t.root).length = size t.root ∧
      Nat.fib ((getHeight t.root).toNat + 2) ≤ size t.root + 1 ∧
      Nat.fib ((getHeight t.root).toNat + 2) - 1 ≤ (inOrder t.root).length ∧
      Nat.fib 1 = 1 ∧ Nat.fib 2 = 1 := by
  obtain ⟨t', ev', e, hi, -⟩ := Inv_run ops Inv_empty
  rw [hr] at e
  simp only [Option.some.injEq, Prod.mk.injEq] at e
  obtain ⟨rfl, -⟩ := e
  have hf := fib_le_size hi.2.1 hi.2.2
  have hh : getHeight t.root = (height t.root : Int) := getHeight_eq_height hi.2.2
  have hlen : ∀ n : Node, (inOrder n).length = size n := by
    intro n
    induction n with
    | null => rfl
    | node k h l r ihl ihr =>
        simp only [inOrder_node, List.length_append, List.length_cons, ihl, ihr, size]
        omega
  rw [hh, Int.toNat_ofNat, hlen]
  exact ⟨Int.ofNat_nonneg _, rfl, hf, by omega, rfl, rfl⟩

/-- C15: on a tree satisfying the invariants one `insertNode` call finds a balance
factor of absolute value above 1 at no more than one node of the search path; if at
none, nothing is reported; if at one node, the events written are exactly those of
one of the four cases applied at that node (one single or one double rotation), so no
case is applied at any other node. -/
theorem insert_at_most_one_case (t : Node) (k : Int) (hi : Inv t) :
    ∃ t' ev, insertNode t k = some (t', ev) ∧
      ((insertBalances t k).filter (fun p => decide (1 < |p.2|))).length ≤ 1 ∧
      (((∀ p ∈ insertBalances t k, |p.2| ≤ 1) ∧ ev = []) ∨
       ∃ pre n b post, insertBalances t k = pre ++ (n, b) :: post ∧
         (∀ p ∈ pre, |p.2| ≤ 1) ∧ (∀ p ∈ post, |p.2| ≤ 1) ∧ 1 < |b| ∧
         isCaseLog n ev = true) := by
  obtain ⟨t', ev, e, htr⟩ := insertNode_trace k hi.2.2 hi.2.1
  refine ⟨t', ev, e, ?_, ?_⟩
  · rcases htr with ⟨hall, -⟩ | ⟨-, pre, n, b, post, hbs, hpre, hpost, hb, -⟩
    · have : (insertBalances t k).filter (fun p => decide (1 < |p.2|)) = [] := by
        rw [List.filter_eq_nil_iff]
        intro p hp
        have := hall p hp
        simp only [decide_eq_true_eq, not_lt]
        exact this
      rw [this]; simp
    · have h1 : pre.filter (fun p => decide (1 < |p.2|)) = [] := by
        rw [List.filter_eq_nil_iff]
        intro p hp
        have := hpre p hp
        simp only [decide_eq_true_eq, not_lt]
        exact this
      have h2 : post.filter (fun p => decide (1 < |p.2|)) = [] := by
        rw [List.filter_eq_nil_iff]
        intro p hp
        have := hpost p hp
        simp only [decide_eq_true_eq, not_lt]
        exact this
      rw [hbs, List.filter_append, h1, List.filter_cons, h2]
      simp [hb]
  · rcases htr with h | ⟨-, h⟩
    · exact Or.inl h
    · exact Or.inr h

theorem insert_at_most_one_case_witness :
    ∃ t' ev, insertNode (.node 10 2 .null (leaf 20)) 30 = some (t', ev) ∧
      ((insertBalances (.node 10 2 .null (leaf 20)) 30).filter
        (fun p => decide (1 < |p.2|))).length ≤ 1 ∧
      (((∀ p ∈ insertBalances (.node 10 2 .null (leaf 20)) 30, |p.2| ≤ 1) ∧ ev = []) ∨
       ∃ pre n b post, insertBalances (.node 10 2 .null (leaf 20)) 30 = pre ++ (n, b) :: post ∧
         (∀ p ∈ pre, |p.2| ≤ 1) ∧ (∀ p ∈ post, |p.2| ≤ 1) ∧ 1 < |b| ∧
         isCaseLog n ev = true) :=
  insert_at_most_one_case (.node 10 2 .null (leaf 20)) 30 (by decide)

/-- C16: the tree built by inserting the twelve keys of `doubleRebalanceKeys` into the
empty tree (no rotation needed, invariants hold) stores 12, and the single call
`remove(12)` applies a rebalancing case at two distinct nodes: the Left-Left case
with a right rotation at 11, then the Left-Left case with a right rotation at 8. -/
theorem remove_rebalances_twice :
    ∃ (t : AVLTree) (t' : AVLTree),
      run (doubleRebalanceKeys.map Op.insert) AVLTree.empty = some (t, []) ∧
      Inv t.root ∧ (12 : Int) ∈ inOrder t.root ∧
      t.remove 12 = some (t',
        [Event.imbalance Case.leftLeft 11, Event.rightRotation 11,
          Event.imbalance Case.leftLeft 8, Event.rightRotation 8]) ∧
      (11 : Int) ≠ 8 :=
  ⟨⟨.node 8 5
      (.node 5 4 (.node 3 3 (.node 2 2 (leaf 1) .null) (leaf 4)) (.node 7 2 (leaf 6) .null))
      (.node 11 3 (.node 10 2 (leaf 9) .null) (leaf 12))⟩,
    ⟨.node 5 4 (.node 3 3 (.node 2 2 (leaf 1) .null) (leaf 4))
      (.node 8 3 (.node 7 2 (leaf 6) .null) (.node 10 2 (leaf 9) (leaf 11)))⟩,
    by decide, by decide, by decide, by decide, by decide⟩

/-- C17: for every tree the queue loop of `levelOrder` ends, with any fuel of at
least the number of nodes, and writes the pairs (key, stored height) level by level:
the nodes at depth 0, then depth 1, and so on, each level from left to right.  So the
nodes of depth below `d` precede those of depth `d` and more, every node is written
exactly once, and the first one is the root.  For the final tree of `main` the output
is 40(h=4) 10(h=3) 60(h=2) 5(h=1) 25(h=2) 50(h=1) 70(h=1) 15(h=1). -/
theorem levelOrder_breadth_first :
    (∀ t : Node, levelOrder t = some (levels t 0 (height t))) ∧
    (∀ (t : Node) (fuel : Nat), t ≠ .null → size t ≤ fuel →
      levelOrderLoop fuel [t] = some (levels t 0 (height t))) ∧
    (∀ (t : Node) (d : Nat), d ≤ height t →
      levels t 0 (height t) = levels t 0 d ++ levels t d (height t - d)) ∧
    (∀ t : Node, (levels t 0 (height t)).Perm (nodes t)) ∧
    (∀ (k h : Int) (l r : Node),
      (levels (.node k h l r) 0 (height (.node k h l r))).head? = some (k, h)) ∧
    (∃ t ev, run demoOps AVLTree.empty = some (t, ev) ∧
      levelOrder t.root =
        some [(40, 4), (10, 3), (60, 2), (5, 1), (25, 2), (50, 1), (70, 1), (15, 1)]) := by
  refine ⟨levelOrder_eq_levels, ?_, ?_, fun t => levels_perm_nodes t _ (le_refl _), ?_, ?_⟩
  · intro t fuel hne hf
    have := levelOrderLoop_eq_bfsF (height t) [t] fuel (by simpa using hne) (by simp)
      (by simpa [sizeF] using hf)
    rw [this, bfsF_eq_levelsF, levelsF_singleton]
  · intro t d hd
    have := levels_add t d (height t - d) 0
    rw [show d + (height t - d) = height t by omega, Nat.zero_add] at this
    exact this
  · intro k h l r
    simp [height, levels, levelNodes]
  · exact ⟨⟨.node 40 4
        (.node 10 3 (leaf 5) (.node 25 2 (leaf 15) .null))
        (.node 60 2 (leaf 50) (leaf 70))⟩,
      [.imbalance .rightRight 10, .leftRotation 10, .imbalance .rightRight 30,
        .leftRotation 30, .imbalance .rightLeft 20, .rightRotation 40, .leftRotation 20,
        .imbalance .rightRight 40, .leftRotation 40, .imbalance .leftLeft 25,
        .rightRotation 25, .imbalance .rightRight 50, .leftRotation 50],
      by decide, by decide⟩

theorem levelOrder_breadth_first_witness :
    levelOrderLoop 5 [Node.node 20 2 (leaf 10) (leaf 30)] =
      some (levels (Node.node 20 2 (leaf 10) (leaf 30)) 0
        (height (Node.node 20 2 (leaf 10) (leaf 30)))) :=
  levelOrder_breadth_first.2.1 (Node.node 20 2 (leaf 10) (leaf 30)) 5 (by decide) (by decide)

/-- C19: on a tree satisfying the invariants with stored height `h`, the tree
returned by `insertNode` has height `h` or `h + 1`; and whenever the call applies a
rebalancing case (its event log is not empty, in particular when it is the log of a
case applied at a node `n`), the returned tree has height `h`.  Every subtree of such
a tree satisfies the invariants too, so this holds for the subtree at the position
where the case is applied. -/
theorem insertNode_height (t : Node) (k : Int) (hi : Inv t) :
    ∃ t' ev, insertNode t k = some (t', ev) ∧
      (getHeight t' = getHeight t ∨ getHeight t' = getHeight t + 1) ∧
      (ev ≠ [] → getHeight t' = getHeight t) ∧
      (∀ n : Int, isCaseLog n ev = true → getHeight t' = getHeight t) := by
  obtain ⟨t', ev, e, -, -, hg⟩ := insertNode_shape k hi.2.2 hi.2.1
  obtain ⟨t2, ev2, e2, htr⟩ := insertNode_trace k hi.2.2 hi.2.1
  rw [e] at e2
  simp only [Option.some.injEq, Prod.mk.injEq] at e2
  obtain ⟨rfl, rfl⟩ := e2
  have hne : ev ≠ [] → getHeight t' = getHeight t := by
    intro hne
    rcases htr with ⟨-, h0⟩ | ⟨hs, -⟩
    · exact absurd h0 hne
    · exact hs
  refine ⟨t', ev, e, ?_, hne, ?_⟩
  · rcases hg with hg | ⟨hg, -⟩
    · exact Or.inl hg
    · exact Or.inr hg
  · intro n hc
    apply hne
    intro h0
    rw [h0] at hc
    simp [isCaseLog] at hc

theorem insertNode_height_witness :
    ∃ t' ev, insertNode (.node 10 2 .null (leaf 20)) 30 = some (t', ev) ∧
      (getHeight t' = getHeight (.node 10 2 .null (leaf 20)) ∨
        getHeight t' = getHeight (.node 10 2 .null (leaf 20)) + 1) ∧
      (ev ≠ [] → getHeight t' = getHeight (.node 10 2 .null (leaf 20))) ∧
      (∀ n : Int, isCaseLog n ev = true →
        getHeight t' = getHeight (.node 10 2 .null (leaf 20))) :=
  insertNode_height (.node 10 2 .null (leaf 20)) 30 (by decide)

theorem fib_height_le_keys_witness :
    0 ≤ getHeight (Node.node 20 2 (leaf 10) (leaf 30)) ∧
      (inOrder (Node.node 20 2 (leaf 10) (leaf 30))).length =
        size (Node.node 20 2 (leaf 10) (leaf 30)) ∧
      Nat.fib ((getHeight (Node.node 20 2 (leaf 10) (leaf 30))).toNat + 2) ≤
        size (Node.node 20 2 (leaf 10) (leaf 30)) + 1 ∧
      Nat.fib ((getHeight (Node.node 20 2 (leaf 10) (leaf 30))).toNat + 2) - 1 ≤
        (inOrder (Node.node 20 2 (leaf 10) (leaf 30))).length ∧
      Nat.fib 1 = 1 ∧ Nat.fib 2 = 1 :=
  fib_height_le_keys [Op.insert 10, Op.insert 20, Op.insert 30]
    ⟨Node.node 20 2 (leaf 10) (leaf 30)⟩
    [Event.imbalance Case.rightRight 10, Event.leftRotation 10] (by decide)

end AVL
